import Mathlib

/-
Verification of the fixed-capacity LRU cache implemented in `src/lru_cache.py`.

The cache is a dictionary mapping keys to entries; each entry stores a value
together with the keys of its less-recently-used neighbor (`prev`) and its
more-recently-used neighbor (`next`), simulating a doubly linked recency list.
The least- and most-recently-used keys are tracked separately.

The embedding below models the Python dictionary as an association list with
natural-number keys, Python `None` as `Option.none`, and each operation as a
function over the whole cache state.  A dictionary access on a missing key
raises `KeyError` in Python; accordingly every operation that performs such
accesses returns `Option LRUCache` (or `Option (value × LRUCache)`), with
`Option.none` at the outer level modelling an uncaught `KeyError`.
-/

namespace LRU

/-- An entry of the cache dictionary: the stored value together with the keys of
its less-recently-used neighbor (`prev`) and more-recently-used neighbor
(`next`).  A stored value of `none` models Python `None`. -/
structure Entry where
  value : Option Nat
  prev : Option Nat
  next : Option Nat
deriving DecidableEq

/-- The cache state of `LRUCache.__init__`: fixed capacity `max_size`, entry
count `current_size`, the two ends of the recency order, and the key-indexed
entry dictionary (modelled as an association list). -/
structure LRUCache where
  max_size : Int
  current_size : Int
  lru_key : Option Nat
  mru_key : Option Nat
  cache : List (Nat × Entry)
deriving DecidableEq

/-- Dictionary read: the entry stored at key `k`, or `none` when `k` is absent
(Python would raise `KeyError`). -/
def alookup : List (Nat × Entry) → Nat → Option Entry
  | [], _ => none
  | (k, e) :: m, j => if k = j then some e else alookup m j

/-- Dictionary write `m[k] = e`: replaces the binding of `k` in place if `k` is
present, otherwise appends a new binding. -/
def aset : List (Nat × Entry) → Nat → Entry → List (Nat × Entry)
  | [], j, e => [(j, e)]
  | (k, x) :: m, j, e => if k = j then (j, e) :: m else (k, x) :: aset m j e

/-- Dictionary deletion `del m[k]`: removes the binding of `k` if present. -/
def aerase : List (Nat × Entry) → Nat → List (Nat × Entry)
  | [], _ => []
  | (k, x) :: m, j => if k = j then m else (k, x) :: aerase m j

/-- The keys of the dictionary, in storage order. -/
def keys (m : List (Nat × Entry)) : List Nat := m.map Prod.fst

/-- The single construction-time error of the design (`ValueError` raised by
`__init__` when `max_size < 1`). -/
inductive CreateError where
  | invalidCapacity
deriving DecidableEq

/-- Construction, from `LRUCache.__init__` (lines 28-40): rejects capacities
below 1, otherwise initializes the empty state. -/
def create (max_size : Int) : Except CreateError LRUCache :=
  if max_size < 1 then Except.error CreateError.invalidCapacity
  else Except.ok { max_size := max_size, current_size := 0,
                   lru_key := none, mru_key := none, cache := [] }

/-- From `LRUCache._update_existing_key_position_context` (lines 47-64):
splices the neighbors of `key` out of the recency list, returning `false` when
`key` has no successor (it is already in the right place) and `true` otherwise.
The outer `none` models a `KeyError` on a dangling neighbor key. -/
def update_existing_key_position_context (c : LRUCache) (key : Nat) :
    Option (Bool × LRUCache) :=
  match alookup c.cache key with
  | none => none
  | some position_info =>
    match position_info.next with
    | none => some (false, c)
    | some next_key =>
      match position_info.prev with
      | none =>
        match alookup c.cache next_key with
        | none => none
        | some ne =>
          some (true, { c with lru_key := some next_key,
                               cache := aset c.cache next_key { ne with prev := none } })
      | some prev_key =>
        match alookup c.cache prev_key with
        | none => none
        | some pe =>
          let m1 := aset c.cache prev_key { pe with next := some next_key }
          match alookup m1 next_key with
          | none => none
          | some ne =>
            some (true, { c with cache := aset m1 next_key { ne with prev := some prev_key } })

/-- Lines 98-106 of `LRUCache.put`: ensure `lru_key` is set, store the new
entry for `key` with `prev` pointing at the old MRU key, and make `key` the
MRU key. -/
def put_tail_finish (c : LRUCache) (key : Nat) (value : Option Nat) : LRUCache :=
  let c1 := match c.lru_key with
    | none => { c with lru_key := some key }
    | some _ => c
  { c1 with cache := aset c1.cache key ⟨value, c1.mru_key, none⟩,
            mru_key := some key }

/-- Lines 95-106 of `LRUCache.put`, the common tail of the existing-key
reorder path and the new-key paths: links `key` in after the current MRU key
and makes it the new MRU key. -/
def put_tail (c : LRUCache) (key : Nat) (value : Option Nat) : Option LRUCache :=
  match c.mru_key with
  | none => some (put_tail_finish c key value)
  | some mk =>
    match alookup c.cache mk with
    | none => none
    | some me =>
      some (put_tail_finish { c with cache := aset c.cache mk { me with next := some key } }
              key value)

/-- From `LRUCache.put` (lines 66-106): insert or update `key`, evicting the
least-recently-used entry when a new key would exceed capacity. -/
def put (c : LRUCache) (key : Nat) (value : Option Nat) : Option LRUCache :=
  match alookup c.cache key with
  | some _ =>
    match update_existing_key_position_context c key with
    | none => none
    | some (false, c1) =>
      match alookup c1.cache key with
      | none => none
      | some e => some { c1 with cache := aset c1.cache key { e with value := value } }
    | some (true, c1) => put_tail c1 key value
  | none =>
    if c.current_size = c.max_size then
      match c.lru_key with
      | none => none
      | some lk =>
        match alookup c.cache lk with
        | none => none
        | some le =>
          match le.next with
          | none =>
            let c1 := { c with cache := aerase c.cache lk, lru_key := some key }
            some { c1 with cache := aset c1.cache key ⟨value, none, none⟩,
                           mru_key := some key }
          | some upcoming =>
            match alookup c.cache upcoming with
            | none => none
            | some ue =>
              let c1 := { c with cache := aset c.cache upcoming { ue with prev := none } }
              let c2 := { c1 with cache := aerase c1.cache lk, lru_key := some upcoming }
              put_tail c2 key value
    else
      put_tail { c with current_size := c.current_size + 1 } key value

/-- From `LRUCache.get` (lines 108-120): return the stored value of `key`
(or `none` for a missing key) and move `key` to the most-recently-used
position.  The outer `none` models an uncaught `KeyError`. -/
def get (c : LRUCache) (key : Nat) : Option (Option Nat × LRUCache) :=
  match alookup c.cache key with
  | none => some (none, c)
  | some e =>
    let value := e.value
    match update_existing_key_position_context c key with
    | none => none
    | some (_, c1) =>
      match c1.mru_key with
      | none => some (value, { c1 with mru_key := some key })
      | some mk =>
        match alookup c1.cache mk with
        | none => none
        | some me =>
          let m1 := aset c1.cache mk { me with next := some key }
          match alookup m1 key with
          | none => none
          | some ke =>
            let m2 := aset m1 key { ke with prev := some mk }
            match alookup m2 key with
            | none => none
            | some ke2 =>
              some (value, { c1 with cache := aset m2 key { ke2 with next := none },
                                     mru_key := some key })

/-- From `LRUCache.delete` (lines 122-144): remove `key` if present, splicing
its neighbors together and updating the list ends; a no-op on a missing key. -/
def delete (c : LRUCache) (key : Nat) : Option LRUCache :=
  match alookup c.cache key with
  | none => some c
  | some _ =>
    match update_existing_key_position_context c key with
    | none => none
    | some (changed, c1) =>
      let step2 : Option LRUCache :=
        if changed then some c1
        else
          match alookup c1.cache key with
          | none => none
          | some ke =>
            match ke.prev with
            | none => some c1
            | some new_mru =>
              match alookup c1.cache new_mru with
              | none => none
              | some ne =>
                some { c1 with cache := aset c1.cache new_mru { ne with next := none },
                               mru_key := some new_mru }
      match step2 with
      | none => none
      | some c2 =>
        let c3 := if c2.lru_key = some key then { c2 with lru_key := none } else c2
        let c4 := if c3.mru_key = some key then { c3 with mru_key := none } else c3
        some { c4 with cache := aerase c4.cache key,
                       current_size := c4.current_size - 1 }

/-- From `LRUCache.reset` (lines 146-150): discard all entries, keeping the
capacity. -/
def reset (c : LRUCache) : LRUCache :=
  { c with cache := [], current_size := 0, mru_key := none, lru_key := none }

/-- A single public operation of the cache. -/
inductive Op where
  | put (key : Nat) (value : Option Nat)
  | get (key : Nat)
  | del (key : Nat)
  | reset
deriving DecidableEq

/-- Running one public operation on a state; `none` models an uncaught
`KeyError` escaping to the caller. -/
def step (c : LRUCache) : Op → Option LRUCache
  | Op.put k v => put c k v
  | Op.get k => (get c k).map Prod.snd
  | Op.del k => delete c k
  | Op.reset => some (reset c)

/-- Running a sequence of public operations, each completing normally. -/
def runOps (c : LRUCache) : List Op → Option LRUCache
  | [] => some c
  | op :: ops =>
    match step c op with
    | none => none
    | some c1 => runOps c1 ops

/-- A state reachable from a validly constructed cache by a sequence of
completed public operations. -/
def Reachable (c : LRUCache) : Prop :=
  ∃ (cap : Int) (c0 : LRUCache) (ops : List Op),
    create cap = Except.ok c0 ∧ runOps c0 ops = some c

/-! Dictionary lemmas: behavior of `alookup`, `aset` and `aerase`. -/

theorem keys_cons (k0 : Nat) (e0 : Entry) (m : List (Nat × Entry)) :
    keys ((k0, e0) :: m) = k0 :: keys m := rfl

theorem length_keys (m : List (Nat × Entry)) : (keys m).length = m.length := by
  simp [keys]

theorem alookup_eq_none_iff (m : List (Nat × Entry)) (k : Nat) :
    alookup m k = none ↔ k ∉ keys m := by
  induction m with
  | nil => simp [alookup, keys]
  | cons kv m ih =>
    obtain ⟨k0, e0⟩ := kv
    rw [keys_cons, List.mem_cons]
    by_cases h : k0 = k
    · subst h
      simp [alookup]
    · have hk : ¬ k = k0 := fun hh => h hh.symm
      simp only [alookup, if_neg h, ih]
      tauto

theorem alookup_isSome_iff (m : List (Nat × Entry)) (k : Nat) :
    (alookup m k).isSome = true ↔ k ∈ keys m := by
  have h := alookup_eq_none_iff m k
  cases hl : alookup m k <;> rw [hl] at h <;> simp at h ⊢ <;> tauto

theorem mem_keys_of_alookup {m : List (Nat × Entry)} {k : Nat} {e : Entry}
    (h : alookup m k = some e) : k ∈ keys m := by
  rw [← alookup_isSome_iff, h]
  rfl

theorem alookup_of_not_mem {m : List (Nat × Entry)} {k : Nat}
    (h : k ∉ keys m) : alookup m k = none :=
  (alookup_eq_none_iff m k).mpr h

theorem alookup_aset_self (m : List (Nat × Entry)) (k : Nat) (e : Entry) :
    alookup (aset m k e) k = some e := by
  induction m with
  | nil => simp [aset, alookup]
  | cons kv m ih =>
    obtain ⟨k0, e0⟩ := kv
    by_cases h : k0 = k <;> simp [aset, alookup, h, ih]

theorem alookup_aset_of_ne {j k : Nat} (m : List (Nat × Entry)) (e : Entry)
    (h : j ≠ k) : alookup (aset m k e) j = alookup m j := by
  have hk : ¬ k = j := fun hh => h hh.symm
  induction m with
  | nil => simp [aset, alookup, hk]
  | cons kv m ih =>
    obtain ⟨k0, e0⟩ := kv
    by_cases h0 : k0 = k
    · subst h0
      simp [aset, alookup, hk]
    · by_cases h1 : k0 = j <;> simp [aset, alookup, h0, h1, ih, h]

theorem keys_aset_of_mem {m : List (Nat × Entry)} {k : Nat} (e : Entry)
    (h : k ∈ keys m) : keys (aset m k e) = keys m := by
  induction m with
  | nil => simp [keys] at h
  | cons kv m ih =>
    obtain ⟨k0, e0⟩ := kv
    by_cases h0 : k0 = k
    · simp [aset, keys, h0]
    · rw [keys_cons, List.mem_cons] at h
      rcases h with h | h
      · exact absurd h.symm h0
      · simp only [aset, if_neg h0, keys_cons, ih h]

theorem keys_aset_of_not_mem {m : List (Nat × Entry)} {k : Nat} (e : Entry)
    (h : k ∉ keys m) : keys (aset m k e) = keys m ++ [k] := by
  induction m with
  | nil => simp [aset, keys]
  | cons kv m ih =>
    obtain ⟨k0, e0⟩ := kv
    rw [keys_cons, List.mem_cons] at h
    push_neg at h
    have h0 : ¬ k0 = k := fun hh => h.1 hh.symm
    simp only [aset, if_neg h0, keys_cons, ih h.2, List.cons_append]

theorem length_aset_of_mem {m : List (Nat × Entry)} {k : Nat} (e : Entry)
    (h : k ∈ keys m) : (aset m k e).length = m.length := by
  have h1 : (keys (aset m k e)).length = (keys m).length := by
    rw [keys_aset_of_mem e h]
  rwa [length_keys, length_keys] at h1

theorem length_aset_of_not_mem {m : List (Nat × Entry)} {k : Nat} (e : Entry)
    (h : k ∉ keys m) : (aset m k e).length = m.length + 1 := by
  have h1 : (keys (aset m k e)).length = (keys m ++ [k]).length := by
    rw [keys_aset_of_not_mem e h]
  rw [length_keys] at h1
  rw [h1]
  simp [keys]

theorem nodup_keys_aset {m : List (Nat × Entry)} {k : Nat} (e : Entry)
    (h : (keys m).Nodup) : (keys (aset m k e)).Nodup := by
  by_cases hm : k ∈ keys m
  · rw [keys_aset_of_mem e hm]
    exact h
  · rw [keys_aset_of_not_mem e hm]
    simp [List.nodup_append, h, hm]

theorem keys_aerase (m : List (Nat × Entry)) (k : Nat) :
    keys (aerase m k) = (keys m).erase k := by
  induction m with
  | nil => simp [aerase, keys]
  | cons kv m ih =>
    obtain ⟨k0, e0⟩ := kv
    by_cases h0 : k0 = k
    · subst h0
      simp [aerase, keys_cons, List.erase_cons_head]
    · rw [keys_cons, List.erase_cons_tail (by simpa using h0)]
      simp only [aerase, if_neg h0, keys_cons, ih]

theorem alookup_aerase_of_ne {j k : Nat} (m : List (Nat × Entry))
    (h : j ≠ k) : alookup (aerase m k) j = alookup m j := by
  induction m with
  | nil => simp [aerase]
  | cons kv m ih =>
    obtain ⟨k0, e0⟩ := kv
    by_cases h0 : k0 = k
    · subst h0
      have hk : ¬ k0 = j := fun hh => h (hh.symm.trans rfl) |>.elim
      simp [aerase, alookup, hk]
    · by_cases h1 : k0 = j <;> simp [aerase, alookup, h0, h1, ih, h]

theorem alookup_aerase_self {m : List (Nat × Entry)} {k : Nat}
    (h : (keys m).Nodup) : alookup (aerase m k) k = none := by
  rw [alookup_eq_none_iff, keys_aerase]
  intro hh
  exact ((List.Nodup.mem_erase_iff h).mp hh).1 rfl

theorem nodup_keys_aerase {m : List (Nat × Entry)} (k : Nat)
    (h : (keys m).Nodup) : (keys (aerase m k)).Nodup := by
  rw [keys_aerase]
  exact h.erase k

theorem length_aerase_of_mem {m : List (Nat × Entry)} {k : Nat}
    (h : k ∈ keys m) : (aerase m k).length + 1 = m.length := by
  have h0 : 0 < (keys m).length := List.length_pos.mpr (List.ne_nil_of_mem h)
  have h2 : ((keys m).erase k).length = (keys m).length - 1 :=
    List.length_erase_of_mem h
  have h3 : (keys (aerase m k)).length = ((keys m).erase k).length := by
    rw [keys_aerase]
  have h4 := length_keys m
  have h5 := length_keys (aerase m k)
  omega


/-! The recency-order invariant of the spec, as an executable checker.
`chainSeg m p ks q` holds when the keys `ks` form a doubly linked segment in
`m`: the first entry's `prev` is `p`, consecutive entries point at each other,
and the last entry's `next` is `q`. -/

/-- The expected `next` pointer of an entry whose remaining chain is `ks`,
with `q` the dangling end of the whole segment. -/
def nextTarget (ks : List Nat) (q : Option Nat) : Option Nat :=
  match ks with
  | [] => q
  | k :: _ => some k

/-- The last element of `xs`, or the default `p` when `xs` is empty. -/
def lastD : List Nat → Option Nat → Option Nat
  | [], p => p
  | a :: xs, _ => lastD xs (some a)

/-- Checks that `ks` is a doubly linked segment of `m` whose first entry has
`prev = p` and whose last entry has `next = q`. -/
def chainSeg (m : List (Nat × Entry)) : Option Nat → List Nat → Option Nat → Bool
  | _, [], _ => true
  | p, k :: ks, q =>
    match alookup m k with
    | none => false
    | some e =>
      decide (e.prev = p) && decide (e.next = nextTarget ks q) && chainSeg m (some k) ks q

/-- The ordering invariant of the spec: the keys listed from `lru_key` along
successor links are exactly the present keys, each visited once, ending at
`mru_key` whose successor is none, with predecessor links mirroring the
successor links back to `lru_key` whose predecessor is none. -/
def Ordered (c : LRUCache) (ks : List Nat) : Prop :=
  (keys c.cache).Nodup ∧
  ks.Perm (keys c.cache) ∧
  chainSeg c.cache none ks none = true ∧
  c.lru_key = ks.head? ∧
  c.mru_key = ks.getLast?

/-- A consistent state of a validly constructed cache: the ordering invariant
together with the size bookkeeping of the data model. -/
def Valid (c : LRUCache) (ks : List Nat) : Prop :=
  Ordered c ks ∧
  c.current_size = (c.cache.length : Int) ∧
  1 ≤ c.max_size ∧
  c.current_size ≤ c.max_size

theorem chainSeg_cons (m : List (Nat × Entry)) (p : Option Nat) (k : Nat)
    (ks : List Nat) (q : Option Nat) :
    chainSeg m p (k :: ks) q = true ↔
      ∃ e, alookup m k = some e ∧ e.prev = p ∧ e.next = nextTarget ks q ∧
        chainSeg m (some k) ks q = true := by
  cases hl : alookup m k <;> simp [chainSeg, hl]
  tauto

theorem chainSeg_singleton (m : List (Nat × Entry)) (p : Option Nat) (k : Nat)
    (q : Option Nat) :
    chainSeg m p [k] q = true ↔
      ∃ e, alookup m k = some e ∧ e.prev = p ∧ e.next = q := by
  rw [chainSeg_cons]
  simp [chainSeg, nextTarget]

theorem mem_of_chainSeg {m : List (Nat × Entry)} {ks : List Nat} :
    ∀ {p q : Option Nat}, chainSeg m p ks q = true →
      ∀ k ∈ ks, ∃ e, alookup m k = some e := by
  induction ks with
  | nil =>
    intro p q _ k hk
    simp at hk
  | cons k0 ks ih =>
    intro p q h k hk
    rw [chainSeg_cons] at h
    obtain ⟨e, he, _, _, hrest⟩ := h
    rcases List.mem_cons.mp hk with rfl | hk
    · exact ⟨e, he⟩
    · exact ih hrest k hk

theorem chainSeg_congr {m m' : List (Nat × Entry)} {ks : List Nat}
    (h : ∀ k ∈ ks, (alookup m' k).map (fun e => (e.prev, e.next)) =
                   (alookup m k).map (fun e => (e.prev, e.next))) :
    ∀ p q, chainSeg m' p ks q = chainSeg m p ks q := by
  induction ks with
  | nil => intro p q; rfl
  | cons k ks ih =>
    intro p q
    have hk := h k (List.mem_cons_self k ks)
    cases h1 : alookup m k with
    | none =>
      rw [h1] at hk
      cases h2 : alookup m' k with
      | none => simp [chainSeg, h1, h2]
      | some e2 =>
        rw [h2] at hk
        simp at hk
    | some e =>
      rw [h1] at hk
      cases h2 : alookup m' k with
      | none =>
        rw [h2] at hk
        simp at hk
      | some e2 =>
        rw [h2] at hk
        have hpn : (e2.prev, e2.next) = (e.prev, e.next) := by
          simpa using hk
        have hp : e2.prev = e.prev := congrArg Prod.fst hpn
        have hn : e2.next = e.next := congrArg Prod.snd hpn
        have ih2 := ih (fun j hj => h j (List.mem_cons_of_mem k hj)) (some k) q
        simp [chainSeg, h1, h2, hp, hn, ih2]

theorem chainSeg_congr_of_eq {m m' : List (Nat × Entry)} {ks : List Nat}
    (h : ∀ k ∈ ks, alookup m' k = alookup m k) :
    ∀ p q, chainSeg m' p ks q = chainSeg m p ks q :=
  chainSeg_congr (fun k hk => by rw [h k hk])

theorem chainSeg_aset_not_mem {m : List (Nat × Entry)} {j : Nat} {ks : List Nat}
    (hj : j ∉ ks) (e : Entry) (p q : Option Nat) :
    chainSeg (aset m j e) p ks q = chainSeg m p ks q :=
  chainSeg_congr_of_eq
    (fun k hk => alookup_aset_of_ne m e (fun h : k = j => hj (h ▸ hk))) p q

theorem chainSeg_aerase_not_mem {m : List (Nat × Entry)} {j : Nat} {ks : List Nat}
    (hj : j ∉ ks) (p q : Option Nat) :
    chainSeg (aerase m j) p ks q = chainSeg m p ks q :=
  chainSeg_congr_of_eq
    (fun k hk => alookup_aerase_of_ne m (fun h : k = j => hj (h ▸ hk))) p q

theorem chainSeg_set_value {m : List (Nat × Entry)} {k : Nat} {e : Entry}
    (he : alookup m k = some e) (v : Option Nat) (ks : List Nat) (p q : Option Nat) :
    chainSeg (aset m k { e with value := v }) p ks q = chainSeg m p ks q :=
  chainSeg_congr
    (fun j _ => by
      by_cases hjk : j = k
      · subst hjk
        rw [alookup_aset_self, he]
        simp
      · rw [alookup_aset_of_ne m _ hjk]) p q

theorem nextTarget_append (xs ys : List Nat) (q : Option Nat) :
    nextTarget (xs ++ ys) q = nextTarget xs (nextTarget ys q) := by
  cases xs <;> rfl

theorem chainSeg_append (m : List (Nat × Entry)) (xs ys : List Nat) :
    ∀ p q, chainSeg m p (xs ++ ys) q =
      (chainSeg m p xs (nextTarget ys q) && chainSeg m (lastD xs p) ys q) := by
  induction xs with
  | nil =>
    intro p q
    simp [chainSeg, lastD]
  | cons x xs ih =>
    intro p q
    show chainSeg m p (x :: (xs ++ ys)) q = _
    cases h1 : alookup m x with
    | none => simp [chainSeg, h1, lastD]
    | some e =>
      simp only [chainSeg, h1, lastD]
      rw [nextTarget_append, ih (some x) q]
      simp [Bool.and_assoc]

theorem lastD_eq_getLast? {xs : List Nat} (h : xs ≠ []) (p : Option Nat) :
    lastD xs p = xs.getLast? := by
  induction xs generalizing p with
  | nil => simp at h
  | cons a xs ih =>
    cases hx : xs with
    | nil => simp [lastD]
    | cons b xs2 =>
      subst hx
      show lastD (b :: xs2) (some a) = _
      rw [ih (by simp) (some a), List.getLast?_cons_cons]


/-! Chain surgery lemmas: rewriting the `next` pointer of the last element and
the `prev` pointer of the first element of a segment. -/

theorem chainSeg_set_last_next {m : List (Nat × Entry)} {xs : List Nat} {a : Nat}
    {e : Entry} (ha : a ∉ xs) (he : alookup m a = some e) {p q : Option Nat}
    (hc : chainSeg m p (xs ++ [a]) q = true) (q' : Option Nat) :
    chainSeg (aset m a { e with next := q' }) p (xs ++ [a]) q' = true := by
  rw [chainSeg_append] at hc
  rw [chainSeg_append]
  simp only [Bool.and_eq_true] at hc ⊢
  obtain ⟨h1, h2⟩ := hc
  rw [chainSeg_singleton] at h2
  obtain ⟨e2, he2, hp2, hn2⟩ := h2
  rw [he] at he2
  injection he2 with he2
  subst he2
  constructor
  · rw [chainSeg_aset_not_mem ha]
    exact h1
  · rw [chainSeg_singleton]
    exact ⟨_, alookup_aset_self m a _, by simpa using hp2, rfl⟩

theorem chainSeg_set_head_prev {m : List (Nat × Entry)} {b : Nat} {ys : List Nat}
    {e : Entry} (hb : b ∉ ys) (he : alookup m b = some e) {p q : Option Nat}
    (hc : chainSeg m p (b :: ys) q = true) (p' : Option Nat) :
    chainSeg (aset m b { e with prev := p' }) p' (b :: ys) q = true := by
  rw [chainSeg_cons] at hc
  obtain ⟨e2, he2, hp2, hn2, hrest⟩ := hc
  rw [he] at he2
  injection he2 with he2
  subst he2
  rw [chainSeg_cons]
  refine ⟨{ e with prev := p' }, alookup_aset_self m b _, rfl, by simpa using hn2, ?_⟩
  rw [chainSeg_aset_not_mem hb]
  exact hrest

theorem head?_append_ne_nil {xs : List Nat} (ys : List Nat) (h : xs ≠ []) :
    (xs ++ ys).head? = xs.head? := by
  cases xs with
  | nil => exact absurd rfl h
  | cons a xs => rfl

/-! Correctness of the shared tail of `put` (lines 95-106): appending `key` at
the most-recently-used end of the chain. -/

theorem put_tail_finish_fields (c : LRUCache) (key : Nat) (v : Option Nat) :
    (put_tail_finish c key v).cache = aset c.cache key ⟨v, c.mru_key, none⟩ ∧
    (put_tail_finish c key v).mru_key = some key ∧
    (put_tail_finish c key v).lru_key =
      (if c.lru_key = none then some key else c.lru_key) ∧
    (put_tail_finish c key v).max_size = c.max_size ∧
    (put_tail_finish c key v).current_size = c.current_size := by
  unfold put_tail_finish
  cases h : c.lru_key <;> simp [h]

theorem put_tail_of_mru_none {c : LRUCache} {key : Nat} {v : Option Nat}
    (h : c.mru_key = none) : put_tail c key v = some (put_tail_finish c key v) := by
  simp [put_tail, h]

theorem put_tail_of_mru_some {c : LRUCache} {key mk : Nat} {v : Option Nat} {me : Entry}
    (h : c.mru_key = some mk) (hme : alookup c.cache mk = some me) :
    put_tail c key v =
      some (put_tail_finish
        { c with cache := aset c.cache mk { me with next := some key } } key v) := by
  simp [put_tail, h, hme]

theorem put_tail_chain {c : LRUCache} {ks : List Nat} {key : Nat} (v : Option Nat)
    (hnd : ks.Nodup)
    (hchain : chainSeg c.cache none ks none = true)
    (hlru : c.lru_key = ks.head?)
    (hmru : c.mru_key = ks.getLast?)
    (hkey : key ∉ ks) :
    ∃ c', put_tail c key v = some c' ∧
      chainSeg c'.cache none (ks ++ [key]) none = true ∧
      c'.lru_key = (ks ++ [key]).head? ∧
      c'.mru_key = some key ∧
      c'.max_size = c.max_size ∧
      c'.current_size = c.current_size ∧
      alookup c'.cache key = some ⟨v, ks.getLast?, none⟩ ∧
      (key ∈ keys c.cache → keys c'.cache = keys c.cache) ∧
      (key ∉ keys c.cache → keys c'.cache = keys c.cache ++ [key]) := by
  cases hks : ks with
  | nil =>
    subst hks
    have hmru0 : c.mru_key = none := by simpa using hmru
    have hlru0 : c.lru_key = none := by simpa using hlru
    obtain ⟨hcache, hmru2, hlru2, hmax2, hsize2⟩ := put_tail_finish_fields c key v
    refine ⟨put_tail_finish c key v, put_tail_of_mru_none hmru0, ?_, ?_, hmru2, hmax2,
      hsize2, ?_, ?_, ?_⟩
    · rw [List.nil_append, chainSeg_singleton, hcache, hmru0]
      exact ⟨_, alookup_aset_self _ _ _, rfl, rfl⟩
    · rw [hlru2, if_pos hlru0]
      rfl
    · rw [hcache, hmru0, alookup_aset_self]
      rfl
    · intro hmem
      rw [hcache]
      exact keys_aset_of_mem _ hmem
    · intro hmem
      rw [hcache]
      exact keys_aset_of_not_mem _ hmem
  | cons k0 ks0 =>
    subst hks
    have hne : (k0 :: ks0) ≠ ([] : List Nat) := by simp
    obtain ⟨mk, hmk⟩ : ∃ mk, (k0 :: ks0).getLast? = some mk :=
      ⟨(k0 :: ks0).getLast hne, List.getLast?_eq_getLast _ hne⟩
    have hdec : (k0 :: ks0).dropLast ++ [mk] = k0 :: ks0 :=
      List.dropLast_append_getLast? mk hmk
    have hmru1 : c.mru_key = some mk := by rw [hmru, hmk]
    have hmkmem : mk ∈ (k0 :: ks0) := by
      rw [← hdec]
      simp
    obtain ⟨me, hme⟩ := mem_of_chainSeg hchain mk hmkmem
    have hmknx : mk ∉ (k0 :: ks0).dropLast := by
      have h2 : ((k0 :: ks0).dropLast ++ [mk]).Nodup := by rwa [hdec]
      simp [List.nodup_append] at h2
      tauto
    set cmid : LRUCache :=
      { c with cache := aset c.cache mk { me with next := some key } } with hcmid
    have hchain1 : chainSeg cmid.cache none (k0 :: ks0) (some key) = true := by
      have h3 := chainSeg_set_last_next hmknx hme (hdec ▸ hchain) (some key)
      rw [hdec] at h3
      exact h3
    have hlru1 : c.lru_key = some k0 := by simpa using hlru
    obtain ⟨hcache, hmru2, hlru2, hmax2, hsize2⟩ := put_tail_finish_fields cmid key v
    have hmkkeys : mk ∈ keys c.cache := mem_keys_of_alookup hme
    have hkeysmid : keys cmid.cache = keys c.cache := keys_aset_of_mem _ hmkkeys
    refine ⟨put_tail_finish cmid key v, put_tail_of_mru_some hmru1 hme, ?_, ?_, hmru2,
      hmax2, hsize2, ?_, ?_, ?_⟩
    · rw [hcache, chainSeg_append]
      simp only [Bool.and_eq_true]
      constructor
      · rw [chainSeg_aset_not_mem hkey]
        exact hchain1
      · rw [chainSeg_singleton]
        refine ⟨_, alookup_aset_self _ _ _, ?_, rfl⟩
        show cmid.mru_key = lastD (k0 :: ks0) none
        rw [lastD_eq_getLast? hne]
        exact hmru1.symm ▸ hmk.symm ▸ rfl
    · rw [hlru2, if_neg (by rw [show cmid.lru_key = c.lru_key from rfl, hlru1]; simp),
        show cmid.lru_key = c.lru_key from rfl, hlru1,
        head?_append_ne_nil [key] hne]
      rfl
    · rw [hcache, alookup_aset_self]
      show some (⟨v, cmid.mru_key, none⟩ : Entry) = some ⟨v, (k0 :: ks0).getLast?, none⟩
      rw [show cmid.mru_key = c.mru_key from rfl, hmru1, hmk]
    · intro hmem
      rw [hcache, keys_aset_of_mem _ (by rwa [hkeysmid]), hkeysmid]
    · intro hmem
      rw [hcache, keys_aset_of_not_mem _ (by rwa [hkeysmid]), hkeysmid]


/-! Correctness of `_update_existing_key_position_context` on each shape of the
chain: key at the tail (the MRU end, where the function reports that nothing
needs to change), key at the head (the LRU end), and key in the interior. -/

theorem chain_last_next {m : List (Nat × Entry)} {ks : List Nat} {k : Nat} {e : Entry}
    (hc : chainSeg m none ks none = true) (hlast : ks.getLast? = some k)
    (he : alookup m k = some e) : e.next = none := by
  have hdec : ks.dropLast ++ [k] = ks := List.dropLast_append_getLast? k hlast
  rw [← hdec, chainSeg_append] at hc
  simp only [Bool.and_eq_true] at hc
  rw [chainSeg_singleton] at hc
  obtain ⟨_, ⟨e2, he2, _, hn2⟩⟩ := hc
  rw [he] at he2
  injection he2 with he2
  rw [← he2] at hn2
  exact hn2

theorem update_ctx_of_next_none {c : LRUCache} {key : Nat} {e : Entry}
    (he : alookup c.cache key = some e) (hn : e.next = none) :
    update_existing_key_position_context c key = some (false, c) := by
  simp [update_existing_key_position_context, he, hn]

theorem update_ctx_head {c : LRUCache} {key b : Nat} {ys : List Nat}
    (hchain : chainSeg c.cache none (key :: b :: ys) none = true)
    (hnd : (key :: b :: ys).Nodup) :
    ∃ c1, update_existing_key_position_context c key = some (true, c1) ∧
      c1.lru_key = some b ∧ c1.mru_key = c.mru_key ∧
      c1.max_size = c.max_size ∧ c1.current_size = c.current_size ∧
      keys c1.cache = keys c.cache ∧
      chainSeg c1.cache none (b :: ys) none = true ∧
      alookup c1.cache key = alookup c.cache key := by
  have hc0 := hchain
  rw [chainSeg_cons] at hc0
  obtain ⟨e, he, hp, hn, hrest⟩ := hc0
  have hnx : e.next = some b := by simpa [nextTarget] using hn
  have hnd2 := hnd
  rw [List.nodup_cons, List.nodup_cons] at hnd2
  have hkb : key ≠ b := fun h => hnd2.1 (by rw [h]; exact List.mem_cons_self b ys)
  have hbys : b ∉ ys := hnd2.2.1
  obtain ⟨be, hbe⟩ := mem_of_chainSeg hrest b (List.mem_cons_self b ys)
  refine ⟨{ c with lru_key := some b, cache := aset c.cache b { be with prev := none } }, ?_, rfl, rfl, rfl, rfl, ?_, ?_, alookup_aset_of_ne _ _ hkb⟩
  · simp [update_existing_key_position_context, he, hnx, hp, hbe]
  · exact keys_aset_of_mem _ (mem_keys_of_alookup hbe)
  · exact chainSeg_set_head_prev hbys hbe hrest none

theorem update_ctx_interior {c : LRUCache} {key : Nat} {xs ys : List Nat}
    (hxs : xs ≠ []) (hys : ys ≠ [])
    (hchain : chainSeg c.cache none (xs ++ key :: ys) none = true)
    (hnd : (xs ++ key :: ys).Nodup) :
    ∃ c1, update_existing_key_position_context c key = some (true, c1) ∧
      c1.lru_key = c.lru_key ∧ c1.mru_key = c.mru_key ∧
      c1.max_size = c.max_size ∧ c1.current_size = c.current_size ∧
      keys c1.cache = keys c.cache ∧
      chainSeg c1.cache none (xs ++ ys) none = true ∧
      alookup c1.cache key = alookup c.cache key := by
  obtain ⟨b, ys', rfl⟩ : ∃ b ys2, ys = b :: ys2 := by
    cases ys with
    | nil => exact absurd rfl hys
    | cons b ys2 => exact ⟨b, ys2, rfl⟩
  obtain ⟨a, ha⟩ : ∃ a, xs.getLast? = some a :=
    ⟨xs.getLast hxs, List.getLast?_eq_getLast _ hxs⟩
  have hdec : xs.dropLast ++ [a] = xs := List.dropLast_append_getLast? a ha
  have hsplit := hchain
  rw [chainSeg_append] at hsplit
  simp only [Bool.and_eq_true] at hsplit
  obtain ⟨hxs_chain, htail⟩ := hsplit
  rw [chainSeg_cons] at htail
  obtain ⟨e, he, hp, hn, hrest⟩ := htail
  have hpa : e.prev = some a := by
    rw [hp, lastD_eq_getLast? hxs, ha]
  have hnb : e.next = some b := by simpa [nextTarget] using hn
  have hndfacts := hnd
  rw [List.nodup_append] at hndfacts
  obtain ⟨hnd_xs, hnd_tail, hdisj⟩ := hndfacts
  have hamem : a ∈ xs := by
    rw [← hdec]
    simp
  have haneb : a ≠ b :=
    fun hab => hdisj hamem (by rw [hab]; exact List.mem_cons_of_mem key (List.mem_cons_self b ys'))
  have hanek : a ≠ key :=
    fun hak => hdisj hamem (by rw [hak]; exact List.mem_cons_self key (b :: ys'))
  have hnd_tail2 := hnd_tail
  rw [List.nodup_cons, List.nodup_cons] at hnd_tail2
  have hkneb : key ≠ b := fun h => hnd_tail2.1 (by rw [h]; exact List.mem_cons_self b ys')
  have hbys' : b ∉ ys' := hnd_tail2.2.1
  have hanotin : a ∉ b :: ys' :=
    fun hmem => hdisj hamem (List.mem_cons_of_mem key hmem)
  have hbxs : b ∉ xs :=
    fun hb => hdisj hb (List.mem_cons_of_mem key (List.mem_cons_self b ys'))
  have hadl : a ∉ xs.dropLast := by
    have h6 := hnd_xs
    rw [← hdec, List.nodup_append] at h6
    intro hmem
    exact h6.2.2 hmem (by simp)
  obtain ⟨ae, hae⟩ := mem_of_chainSeg hxs_chain a hamem
  obtain ⟨be, hbe⟩ := mem_of_chainSeg hrest b (List.mem_cons_self b ys')
  have hbe1 : alookup (aset c.cache a { ae with next := some b }) b = some be := by
    rw [alookup_aset_of_ne _ _ (Ne.symm haneb), hbe]
  refine ⟨{ c with cache := aset (aset c.cache a { ae with next := some b }) b { be with prev := some a } }, ?_, rfl, rfl, rfl, rfl, ?_, ?_, ?_⟩
  · simp [update_existing_key_position_context, he, hnb, hpa, hae, hbe1]
  · rw [keys_aset_of_mem _
        (by rw [keys_aset_of_mem _ (mem_keys_of_alookup hae)]; exact mem_keys_of_alookup hbe),
      keys_aset_of_mem _ (mem_keys_of_alookup hae)]
  · show chainSeg _ none (xs ++ b :: ys') none = true
    rw [chainSeg_append]
    simp only [Bool.and_eq_true]
    constructor
    · have hxs_new : chainSeg (aset c.cache a { ae with next := some b }) none xs (some b) = true := by
        have h5 := chainSeg_set_last_next hadl hae (by rw [hdec]; exact hxs_chain) (some b)
        rw [hdec] at h5
        exact h5
      rw [show nextTarget (b :: ys') (none : Option Nat) = some b from rfl,
        chainSeg_aset_not_mem hbxs]
      exact hxs_new
    · have hrest1 : chainSeg (aset c.cache a { ae with next := some b }) (some key)
          (b :: ys') none = true := by
        rw [chainSeg_aset_not_mem hanotin]
        exact hrest
      have h7 := chainSeg_set_head_prev hbys' hbe1 hrest1 (some a)
      rw [lastD_eq_getLast? hxs, ha]
      exact h7
  · rw [alookup_aset_of_ne _ _ hkneb, alookup_aset_of_ne _ _ (Ne.symm hanek)]


/-! Correctness of `put` on each of its paths. -/

theorem put_existing_mru {c : LRUCache} {ks : List Nat} {key : Nat} {e : Entry}
    (v : Option Nat) (hval : Valid c ks) (hlast : ks.getLast? = some key)
    (he : alookup c.cache key = some e) :
    put c key v = some { c with cache := aset c.cache key { e with value := v } } ∧
    Valid { c with cache := aset c.cache key { e with value := v } } ks ∧
    alookup (aset c.cache key { e with value := v }) key = some { e with value := v } := by
  obtain ⟨⟨hnodup, hperm, hchain, hlru, hmru⟩, hsize, hmax, hbound⟩ := hval
  have hnext : e.next = none := chain_last_next hchain hlast he
  have hupd := update_ctx_of_next_none he hnext
  have hkeys : keys (aset c.cache key { e with value := v }) = keys c.cache :=
    keys_aset_of_mem _ (mem_keys_of_alookup he)
  have hlen : (aset c.cache key { e with value := v }).length = c.cache.length :=
    length_aset_of_mem _ (mem_keys_of_alookup he)
  refine ⟨?_, ⟨⟨?_, ?_, ?_, hlru, hmru⟩, ?_, hmax, hbound⟩, alookup_aset_self _ _ _⟩
  · simp [put, he, hupd]
  · rw [hkeys]
    exact hnodup
  · rw [hkeys]
    exact hperm
  · rw [chainSeg_set_value he]
    exact hchain
  · rw [hlen]
    exact hsize

theorem put_new_room {c : LRUCache} {ks : List Nat} {key : Nat} (v : Option Nat)
    (hval : Valid c ks) (habs : alookup c.cache key = none)
    (hnotfull : c.current_size ≠ c.max_size) :
    ∃ c', put c key v = some c' ∧ Valid c' (ks ++ [key]) ∧
      c'.mru_key = some key ∧ c'.lru_key = (ks ++ [key]).head? ∧
      c'.current_size = c.current_size + 1 ∧ c'.max_size = c.max_size ∧
      alookup c'.cache key = some ⟨v, ks.getLast?, none⟩ := by
  obtain ⟨⟨hnodup, hperm, hchain, hlru, hmru⟩, hsize, hmax, hbound⟩ := hval
  have hkeyabs : key ∉ keys c.cache := (alookup_eq_none_iff _ _).mp habs
  have hkeyks : key ∉ ks := fun hmem => hkeyabs (hperm.mem_iff.mp hmem)
  have hndks : ks.Nodup := hperm.nodup_iff.mpr hnodup
  obtain ⟨c', hpt, hchain', hlru', hmru', hmax', hsize', hkey', hkmem, hknot⟩ :=
    @put_tail_chain { c with current_size := c.current_size + 1 } ks key v hndks hchain
      hlru hmru hkeyks
  have hkeys' : keys c'.cache = keys c.cache ++ [key] := hknot hkeyabs
  refine ⟨c', ?_, ⟨⟨?_, ?_, hchain', hlru', ?_⟩, ?_, ?_, ?_⟩, hmru', hlru', ?_, hmax', hkey'⟩
  · simp only [put, habs, if_neg hnotfull]
    exact hpt
  · rw [hkeys']
    simp [List.nodup_append, hnodup, hkeyabs]
  · rw [hkeys']
    exact hperm.append_right [key]
  · rw [hmru', List.getLast?_concat]
  · rw [hsize']
    show c.current_size + 1 = _
    have h8 : (keys c'.cache).length = (keys c.cache ++ [key]).length := by rw [hkeys']
    rw [length_keys] at h8
    have h9 : (keys c.cache ++ [key]).length = c.cache.length + 1 := by
      simp [keys]
    rw [h8, h9, hsize]
    push_cast
    ring
  · rw [hmax']
    exact hmax
  · rw [hsize', hmax']
    show c.current_size + 1 ≤ c.max_size
    omega
  · rw [hsize']


theorem put_existing_move {c : LRUCache} {ks : List Nat} {key : Nat} (v : Option Nat)
    (hval : Valid c ks) (hmem : key ∈ ks) (hnotlast : ks.getLast? ≠ some key) :
    ∃ c', put c key v = some c' ∧
      Valid c' (ks.erase key ++ [key]) ∧
      c'.mru_key = some key ∧ c'.lru_key = (ks.erase key ++ [key]).head? ∧
      c'.current_size = c.current_size ∧ c'.max_size = c.max_size ∧
      alookup c'.cache key = some ⟨v, (ks.erase key).getLast?, none⟩ := by
  obtain ⟨⟨hnodup, hperm, hchain, hlru, hmru⟩, hsize, hmax, hbound⟩ := hval
  have hndks : ks.Nodup := hperm.nodup_iff.mpr hnodup
  obtain ⟨xs, ys, rfl⟩ := List.append_of_mem hmem
  obtain ⟨b, ys0, rfl⟩ : ∃ b ys0, ys = b :: ys0 := by
    cases ys with
    | nil => exact absurd (List.getLast?_concat xs) hnotlast
    | cons b ys0 => exact ⟨b, ys0, rfl⟩
  have hkeymem : key ∈ keys c.cache := hperm.mem_iff.mp hmem
  obtain ⟨e0, he0⟩ := (Option.isSome_iff_exists).mp ((alookup_isSome_iff _ _).mpr hkeymem)
  cases xs with
  | nil =>
    rw [List.nil_append] at hchain hlru hmru hperm hndks hmem ⊢
    obtain ⟨c1, hupd, hlru1, hmru1, hmax1, hsize1, hkeys1, hchain1, hlook1⟩ :=
      update_ctx_head hchain hndks
    have hnd2 : (b :: ys0).Nodup := (List.nodup_cons.mp hndks).2
    have hkey2 : key ∉ (b :: ys0) := (List.nodup_cons.mp hndks).1
    have hlru2 : c1.lru_key = (b :: ys0).head? := by rw [hlru1]; rfl
    have hmru2 : c1.mru_key = (b :: ys0).getLast? := by
      rw [hmru1, hmru, List.getLast?_cons_cons]
    obtain ⟨c', hpt, hchain', hlru', hmru', hmax', hsize', hkey', hkmemf, hknotf⟩ :=
      put_tail_chain v hnd2 hchain1 hlru2 hmru2 hkey2
    have hkeys' : keys c'.cache = keys c.cache := by
      rw [hkmemf (by rw [hkeys1]; exact hkeymem)]
      exact hkeys1
    have herase : (key :: b :: ys0).erase key = b :: ys0 := List.erase_cons_head key _
    have hlen' : c'.cache.length = c.cache.length := by
      have h8 : (keys c'.cache).length = (keys c.cache).length := by rw [hkeys']
      rwa [length_keys, length_keys] at h8
    rw [herase]
    refine ⟨c', ?_, ⟨⟨?_, ?_, hchain', hlru', ?_⟩, ?_, ?_, ?_⟩, hmru', hlru', ?_, ?_, hkey'⟩
    · simp only [put, he0, hupd]
      exact hpt
    · rw [hkeys']
      exact hnodup
    · rw [hkeys']
      exact ((List.perm_append_singleton key (b :: ys0)).trans
        ((List.perm_cons key).mpr (List.Perm.refl _))).trans hperm
    · rw [hmru', List.getLast?_concat]
    · rw [hsize', hsize1, hlen']
      exact hsize
    · rw [hmax', hmax1]
      exact hmax
    · rw [hsize', hsize1, hmax', hmax1]
      exact hbound
    · rw [hsize', hsize1]
    · rw [hmax', hmax1]
  | cons x0 xs0 =>
    obtain ⟨c1, hupd, hlru1, hmru1, hmax1, hsize1, hkeys1, hchain1, hlook1⟩ :=
      @update_ctx_interior c key (x0 :: xs0) (b :: ys0)
        (by simp) (by simp) hchain hndks
    have hsub : List.Sublist ((x0 :: xs0) ++ (b :: ys0)) ((x0 :: xs0) ++ key :: b :: ys0) :=
      List.Sublist.append_left (List.sublist_cons_self key (b :: ys0)) (x0 :: xs0)
    have hnd2 : ((x0 :: xs0) ++ (b :: ys0)).Nodup := hndks.sublist hsub
    have hndsplit := hndks
    rw [List.nodup_append] at hndsplit
    have hkeyxs : key ∉ (x0 :: xs0) :=
      fun h => hndsplit.2.2 h (List.mem_cons_self key (b :: ys0))
    have hkeytail : key ∉ (b :: ys0) := (List.nodup_cons.mp hndsplit.2.1).1
    have hkey2 : key ∉ (x0 :: xs0) ++ (b :: ys0) := by
      rw [List.mem_append]
      rintro (h | h)
      · exact hkeyxs h
      · exact hkeytail h
    have hlru2 : c1.lru_key = ((x0 :: xs0) ++ (b :: ys0)).head? := by
      rw [hlru1, hlru]
      rfl
    have hmru2 : c1.mru_key = ((x0 :: xs0) ++ (b :: ys0)).getLast? := by
      rw [hmru1, hmru, List.getLast?_append_of_ne_nil _ (by simp : key :: b :: ys0 ≠ []),
        List.getLast?_cons_cons, List.getLast?_append_of_ne_nil _ (by simp : b :: ys0 ≠ [])]
    obtain ⟨c', hpt, hchain', hlru', hmru', hmax', hsize', hkey', hkmemf, hknotf⟩ :=
      put_tail_chain v hnd2 hchain1 hlru2 hmru2 hkey2
    have hkeys' : keys c'.cache = keys c.cache := by
      rw [hkmemf (by rw [hkeys1]; exact hkeymem)]
      exact hkeys1
    have herase : ((x0 :: xs0) ++ key :: b :: ys0).erase key = (x0 :: xs0) ++ (b :: ys0) := by
      rw [List.erase_append_right _ hkeyxs, List.erase_cons_head]
    have hlen' : c'.cache.length = c.cache.length := by
      have h8 : (keys c'.cache).length = (keys c.cache).length := by rw [hkeys']
      rwa [length_keys, length_keys] at h8
    rw [herase]
    refine ⟨c', ?_, ⟨⟨?_, ?_, hchain', hlru', ?_⟩, ?_, ?_, ?_⟩, hmru', hlru', ?_, ?_, hkey'⟩
    · simp only [put, he0, hupd]
      exact hpt
    · rw [hkeys']
      exact hnodup
    · rw [hkeys']
      exact ((List.perm_append_singleton key _).trans
        (List.perm_middle).symm).trans hperm
    · rw [hmru', List.getLast?_concat]
    · rw [hsize', hsize1, hlen']
      exact hsize
    · rw [hmax', hmax1]
      exact hmax
    · rw [hsize', hsize1, hmax', hmax1]
      exact hbound
    · rw [hsize', hsize1]
    · rw [hmax', hmax1]


theorem put_new_full {c : LRUCache} {ks : List Nat} {key : Nat} (v : Option Nat)
    (hval : Valid c ks) (habs : alookup c.cache key = none)
    (hfull : c.current_size = c.max_size) :
    ∃ c', put c key v = some c' ∧
      Valid c' (ks.tail ++ [key]) ∧
      c'.mru_key = some key ∧
      c'.lru_key = some (ks.tail.headD key) ∧
      c'.current_size = c.current_size ∧ c'.max_size = c.max_size ∧
      (∀ l, c.lru_key = some l → alookup c'.cache l = none) ∧
      ∃ e, alookup c'.cache key = some e ∧ e.value = v ∧ e.next = none := by
  obtain ⟨⟨hnodup, hperm, hchain, hlru, hmru⟩, hsize, hmax, hbound⟩ := hval
  have hndks : ks.Nodup := hperm.nodup_iff.mpr hnodup
  have hkeyabs : key ∉ keys c.cache := (alookup_eq_none_iff _ _).mp habs
  have hkeyks : key ∉ ks := fun h => hkeyabs (hperm.mem_iff.mp h)
  have hlenks : ks.length = c.cache.length := by
    have h1 := hperm.length_eq
    rwa [length_keys] at h1
  have hpos : 0 < c.cache.length := by
    rcases Nat.eq_zero_or_pos c.cache.length with h0 | h0
    · rw [h0] at hsize
      simp at hsize
      omega
    · exact h0
  obtain ⟨l, rest, rfl⟩ : ∃ l rest, ks = l :: rest := by
    cases ks with
    | nil => simp at hlenks; omega
    | cons l rest => exact ⟨l, rest, rfl⟩
  have hlruL : c.lru_key = some l := by rw [hlru]; rfl
  obtain ⟨le, hle, hlep, hlenx, hrest⟩ := (chainSeg_cons _ _ _ _ _).mp hchain
  have hlmem : l ∈ keys c.cache := mem_keys_of_alookup hle
  have hlkey : l ≠ key := fun h => hkeyabs (h ▸ hlmem)
  cases rest with
  | nil =>
    have hnext : le.next = none := by simpa [nextTarget] using hlenx
    have hkeysone : keys c.cache = [l] := List.perm_singleton.mp hperm.symm
    have hkeyser : keys (aerase c.cache l) = [] := by
      rw [keys_aerase, hkeysone, List.erase_cons_head]
    have hkeyabs2 : key ∉ keys (aerase c.cache l) := by
      rw [hkeyser]
      simp
    have hkeysfin : keys (aset (aerase c.cache l) key ⟨v, none, none⟩) = [key] := by
      rw [keys_aset_of_not_mem _ hkeyabs2, hkeyser]
      rfl
    have hlenone : c.cache.length = 1 := by
      have h2 : (keys c.cache).length = 1 := by rw [hkeysone]; rfl
      rwa [length_keys] at h2
    refine ⟨{ c with cache := aset (aerase c.cache l) key ⟨v, none, none⟩, lru_key := some key, mru_key := some key }, ?_, ⟨⟨?_, ?_, ?_, rfl, rfl⟩, ?_, hmax, ?_⟩, rfl, rfl, rfl, rfl, ?_, ?_⟩
    · simp only [put, habs]
      rw [if_pos hfull]
      simp only [hlruL, hle, hnext]
    · show (keys (aset (aerase c.cache l) key ⟨v, none, none⟩)).Nodup
      rw [hkeysfin]
      simp
    · show List.Perm _ (keys (aset (aerase c.cache l) key ⟨v, none, none⟩))
      rw [hkeysfin]
      exact List.Perm.refl _
    · show chainSeg (aset (aerase c.cache l) key ⟨v, none, none⟩) none ([] ++ [key]) none = true
      rw [List.nil_append, chainSeg_singleton]
      exact ⟨_, alookup_aset_self _ _ _, rfl, rfl⟩
    · show c.current_size = _
      have h3 : (keys (aset (aerase c.cache l) key ⟨v, none, none⟩)).length = 1 := by
        rw [hkeysfin]
        rfl
      rw [length_keys] at h3
      rw [h3, hsize, hlenone]
    · show c.current_size ≤ c.max_size
      omega
    · intro l2 hl2
      rw [hlruL] at hl2
      injection hl2 with hl2
      subst hl2
      show alookup (aset (aerase c.cache l) key ⟨v, none, none⟩) l = none
      rw [alookup_aset_of_ne _ _ hlkey]
      exact alookup_aerase_self hnodup
    · exact ⟨_, alookup_aset_self _ _ _, rfl, rfl⟩
  | cons u rest2 =>
    have hnext : le.next = some u := by simpa [nextTarget] using hlenx
    obtain ⟨ue, hue⟩ := mem_of_chainSeg hrest u (List.mem_cons_self u rest2)
    have hnd2 := hndks
    rw [List.nodup_cons] at hnd2
    have hlnotin : l ∉ u :: rest2 := hnd2.1
    have hndtail : (u :: rest2).Nodup := hnd2.2
    have hurest : u ∉ rest2 := (List.nodup_cons.mp hndtail).1
    have hchain1 : chainSeg (aset c.cache u { ue with prev := none }) none
        (u :: rest2) none = true :=
      chainSeg_set_head_prev hurest hue hrest none
    have hchain2 : chainSeg (aerase (aset c.cache u { ue with prev := none }) l) none
        (u :: rest2) none = true := by
      rw [chainSeg_aerase_not_mem hlnotin]
      exact hchain1
    have hkeysm1 : keys (aset c.cache u { ue with prev := none }) = keys c.cache :=
      keys_aset_of_mem _ (mem_keys_of_alookup hue)
    have hkeysm2 : keys (aerase (aset c.cache u { ue with prev := none }) l) =
        (keys c.cache).erase l := by
      rw [keys_aerase, hkeysm1]
    have hkey2 : key ∉ (u :: rest2) := fun h => hkeyks (List.mem_cons_of_mem l h)
    have hkeyabs2 : key ∉ keys (aerase (aset c.cache u { ue with prev := none }) l) := by
      rw [hkeysm2]
      intro h
      exact hkeyabs (List.mem_of_mem_erase h)
    have hmru2 :
        ({ c with cache := aerase (aset c.cache u { ue with prev := none }) l, lru_key := some u } : LRUCache).mru_key = (u :: rest2).getLast? := by
      show c.mru_key = _
      rw [hmru, List.getLast?_cons_cons]
    obtain ⟨c', hpt, hchain', hlru', hmru', hmax', hsize', hkey', hkmemf, hknotf⟩ :=
      @put_tail_chain { c with cache := aerase (aset c.cache u { ue with prev := none }) l, lru_key := some u }
        (u :: rest2) key v hndtail hchain2 rfl hmru2 hkey2
    have hkeys' : keys c'.cache = (keys c.cache).erase l ++ [key] := by
      rw [hknotf hkeyabs2, hkeysm2]
    have hlnotin2 : l ∉ (keys c.cache).erase l :=
      fun h => ((List.Nodup.mem_erase_iff hnodup).mp h).1 rfl
    have hlgone : alookup c'.cache l = none := by
      rw [alookup_eq_none_iff, hkeys']
      rw [List.mem_append]
      rintro (h | h)
      · exact hlnotin2 h
      · simp at h
        exact hlkey h
    have hlen' : c'.cache.length = c.cache.length := by
      have h4 : (keys c'.cache).length = ((keys c.cache).erase l ++ [key]).length := by
        rw [hkeys']
      rw [length_keys] at h4
      have h5 : ((keys c.cache).erase l).length = (keys c.cache).length - 1 :=
        List.length_erase_of_mem hlmem
      have h6 : 0 < (keys c.cache).length := by rwa [length_keys]
      have h7 := length_keys c.cache
      simp [h5] at h4
      omega
    refine ⟨c', ?_, ⟨⟨?_, ?_, hchain', hlru', ?_⟩, ?_, ?_, ?_⟩, hmru', ?_, hsize', hmax', ?_, ?_⟩
    · simp only [put, habs]
      rw [if_pos hfull]
      simp only [hlruL, hle, hnext, hue]
      exact hpt
    · rw [hkeys']
      simp only [List.nodup_append]
      refine ⟨hnodup.erase l, by simp, ?_⟩
      intro x hx
      simp
      intro hxk
      subst hxk
      exact hkeyabs (List.mem_of_mem_erase hx)
    · rw [hkeys']
      have h8 : (u :: rest2).Perm ((keys c.cache).erase l) := by
        have h9 := hperm.erase l
        rwa [List.erase_cons_head] at h9
      exact h8.append_right [key]
    · rw [hmru', List.getLast?_concat]
    · rw [hsize']
      show c.current_size = _
      rw [hlen']
      exact hsize
    · rw [hmax']
      exact hmax
    · rw [hsize', hmax']
      show c.current_size ≤ c.max_size
      omega
    · rw [hlru']
      rfl
    · intro l2 hl2
      rw [hlruL] at hl2
      injection hl2 with hl2
      subst hl2
      exact hlgone
    · exact ⟨_, hkey', rfl, rfl⟩


/-! Correctness of `get` on each of its paths. -/

theorem aset_aset_self (m : List (Nat × Entry)) (k : Nat) (a b : Entry) :
    aset (aset m k a) k b = aset m k b := by
  induction m with
  | nil => simp [aset]
  | cons kv m ih =>
    obtain ⟨k0, e0⟩ := kv
    by_cases h : k0 = k <;> simp [aset, h, ih]

theorem get_absent {c : LRUCache} {key : Nat} (h : alookup c.cache key = none) :
    get c key = some (none, c) := by
  simp [get, h]

theorem get_at_mru {c : LRUCache} {key : Nat} {e : Entry}
    (he : alookup c.cache key = some e) (hn : e.next = none)
    (hmru : c.mru_key = some key) :
    get c key = some (e.value,
      { c with cache := aset c.cache key ⟨e.value, some key, none⟩,
               mru_key := some key }) := by
  have hupd := update_ctx_of_next_none he hn
  have hlook1 : alookup (aset c.cache key { e with next := some key }) key =
      some { e with next := some key } := alookup_aset_self _ _ _
  simp only [get, he, hupd, hmru, hlook1, alookup_aset_self, aset_aset_self]

theorem get_move {c : LRUCache} {ks : List Nat} {key : Nat}
    (hval : Valid c ks) (hmem : key ∈ ks) (hnotlast : ks.getLast? ≠ some key) :
    ∃ e c', alookup c.cache key = some e ∧
      get c key = some (e.value, c') ∧
      Valid c' (ks.erase key ++ [key]) ∧
      c'.mru_key = some key ∧ c'.lru_key = (ks.erase key ++ [key]).head? ∧
      c'.current_size = c.current_size ∧ c'.max_size = c.max_size := by
  obtain ⟨⟨hnodup, hperm, hchain, hlru, hmru⟩, hsize, hmax, hbound⟩ := hval
  have hndks : ks.Nodup := hperm.nodup_iff.mpr hnodup
  have hkeymem : key ∈ keys c.cache := hperm.mem_iff.mp hmem
  obtain ⟨e, he⟩ := (Option.isSome_iff_exists).mp ((alookup_isSome_iff _ _).mpr hkeymem)
  obtain ⟨xs, ys, rfl⟩ := List.append_of_mem hmem
  obtain ⟨b, ys0, rfl⟩ : ∃ b ys0, ys = b :: ys0 := by
    cases ys with
    | nil => exact absurd (List.getLast?_concat xs) hnotlast
    | cons b ys0 => exact ⟨b, ys0, rfl⟩
  -- obtain the spliced intermediate state c1 with remaining chain ks2
  have hstep : ∃ c1 ks2, update_existing_key_position_context c key = some (true, c1) ∧
      (xs ++ key :: b :: ys0).erase key = ks2 ∧
      ks2 ≠ [] ∧
      ks2.Nodup ∧ key ∉ ks2 ∧
      chainSeg c1.cache none ks2 none = true ∧
      c1.lru_key = ks2.head? ∧ c1.mru_key = ks2.getLast? ∧
      keys c1.cache = keys c.cache ∧
      c1.current_size = c.current_size ∧ c1.max_size = c.max_size ∧
      (xs ++ key :: b :: ys0).Perm (key :: ks2) ∧
      alookup c1.cache key = alookup c.cache key := by
    cases xs with
    | nil =>
      rw [List.nil_append] at hchain hlru hmru hndks ⊢
      obtain ⟨c1, hupd, hlru1, hmru1, hmax1, hsize1, hkeys1, hchain1, hlook1⟩ :=
        update_ctx_head hchain hndks
      refine ⟨c1, b :: ys0, hupd, List.erase_cons_head key _, by simp,
        (List.nodup_cons.mp hndks).2,
        (List.nodup_cons.mp hndks).1, hchain1, by rw [hlru1]; rfl, ?_, hkeys1, hsize1,
        hmax1, List.Perm.refl _, hlook1⟩
      rw [hmru1, hmru, List.getLast?_cons_cons]
    | cons x0 xs0 =>
      obtain ⟨c1, hupd, hlru1, hmru1, hmax1, hsize1, hkeys1, hchain1, hlook1⟩ :=
        @update_ctx_interior c key (x0 :: xs0) (b :: ys0)
          (by simp) (by simp) hchain hndks
      have hndsplit := hndks
      rw [List.nodup_append] at hndsplit
      have hkeyxs : key ∉ (x0 :: xs0) :=
        fun h => hndsplit.2.2 h (List.mem_cons_self key (b :: ys0))
      have hkeytail : key ∉ (b :: ys0) := (List.nodup_cons.mp hndsplit.2.1).1
      have hsub : List.Sublist ((x0 :: xs0) ++ (b :: ys0)) ((x0 :: xs0) ++ key :: b :: ys0) :=
        List.Sublist.append_left (List.sublist_cons_self key (b :: ys0)) (x0 :: xs0)
      refine ⟨c1, (x0 :: xs0) ++ (b :: ys0), hupd, ?_, by simp, hndks.sublist hsub, ?_,
        hchain1, ?_, ?_, hkeys1, hsize1, hmax1, List.perm_middle, hlook1⟩
      · rw [List.erase_append_right _ hkeyxs, List.erase_cons_head]
      · rw [List.mem_append]
        rintro (h | h)
        · exact hkeyxs h
        · exact hkeytail h
      · rw [hlru1, hlru]
        rfl
      · rw [hmru1, hmru, List.getLast?_append_of_ne_nil _ (by simp : key :: b :: ys0 ≠ []),
          List.getLast?_cons_cons, List.getLast?_append_of_ne_nil _ (by simp : b :: ys0 ≠ [])]
  obtain ⟨c1, ks2, hupd, herase, hks2ne, hnd2, hkey2, hchain1, hlru1, hmru1, hkeys1,
    hsize1, hmax1, hperm1, hlook1⟩ := hstep
  obtain ⟨mk, hmk⟩ : ∃ mk, ks2.getLast? = some mk :=
    ⟨ks2.getLast hks2ne, List.getLast?_eq_getLast _ hks2ne⟩
  have hmru1some : c1.mru_key = some mk := by rw [hmru1, hmk]
  have hdec : ks2.dropLast ++ [mk] = ks2 := List.dropLast_append_getLast? mk hmk
  have hmkmem : mk ∈ ks2 := by
    rw [← hdec]
    simp
  obtain ⟨me, hme⟩ := mem_of_chainSeg hchain1 mk hmkmem
  have hkeymk : key ≠ mk := fun h => hkey2 (h ▸ hmkmem)
  have hlookm1 : alookup (aset c1.cache mk { me with next := some key }) key = some e := by
    rw [alookup_aset_of_ne _ _ hkeymk, hlook1, he]
  obtain ⟨hd2, hhd2⟩ : ∃ hd2, ks2.head? = some hd2 := by
    cases ks2 with
    | nil => exact absurd rfl hks2ne
    | cons h2 t2 => exact ⟨h2, rfl⟩
  have hlru1some : c1.lru_key = some hd2 := by rw [hlru1, hhd2]
  obtain ⟨c', hpt, hchain', hlru', hmru', hmax', hsize', hkey', hkmemf, hknotf⟩ :=
    @put_tail_chain c1 ks2 key e.value hnd2 hchain1 hlru1 hmru1 hkey2
  have hgp : get c key = (put_tail c1 key e.value).map (Prod.mk e.value) := by
    simp only [get, he, hupd, hmru1some, hme, hlookm1, alookup_aset_self, aset_aset_self,
      put_tail, put_tail_finish, hlru1some]
    rfl
  have hget : get c key = some (e.value, c') := by
    rw [hgp, hpt]
    rfl
  have hkeys' : keys c'.cache = keys c.cache := by
    rw [hkmemf (by rw [hkeys1]; exact hkeymem)]
    exact hkeys1
  have hlen' : c'.cache.length = c.cache.length := by
    have h8 : (keys c'.cache).length = (keys c.cache).length := by rw [hkeys']
    rwa [length_keys, length_keys] at h8
  rw [herase]
  refine ⟨e, c', he, hget, ⟨⟨?_, ?_, hchain', hlru', ?_⟩, ?_, ?_, ?_⟩, hmru', hlru', ?_, ?_⟩
  · rw [hkeys']
    exact hnodup
  · rw [hkeys']
    exact ((List.perm_append_singleton key ks2).trans hperm1.symm).trans hperm
  · rw [hmru', List.getLast?_concat]
  · rw [hsize', hsize1, hlen']
    exact hsize
  · rw [hmax', hmax1]
    exact hmax
  · rw [hsize', hsize1, hmax', hmax1]
    exact hbound
  · rw [hsize', hsize1]
  · rw [hmax', hmax1]


/-! Correctness of `delete` on each of its paths. -/

theorem delete_absent {c : LRUCache} {key : Nat} (h : alookup c.cache key = none) :
    delete c key = some c := by
  simp [delete, h]

theorem delete_present {c : LRUCache} {ks : List Nat} {key : Nat}
    (hval : Valid c ks) (hmem : key ∈ ks) :
    ∃ c', delete c key = some c' ∧ Valid c' (ks.erase key) ∧
      alookup c'.cache key = none ∧
      c'.current_size = c.current_size - 1 ∧ c'.max_size = c.max_size := by
  obtain ⟨⟨hnodup, hperm, hchain, hlru, hmru⟩, hsize, hmax, hbound⟩ := hval
  have hndks : ks.Nodup := hperm.nodup_iff.mpr hnodup
  have hkeymem : key ∈ keys c.cache := hperm.mem_iff.mp hmem
  obtain ⟨e, he⟩ := (Option.isSome_iff_exists).mp ((alookup_isSome_iff _ _).mpr hkeymem)
  have hlenpos : 0 < c.cache.length := by
    have h1 : (keys c.cache).length ≠ 0 := by
      intro h2
      rw [List.length_eq_zero] at h2
      rw [h2] at hkeymem
      simp at hkeymem
    rw [length_keys] at h1
    omega
  obtain ⟨xs, ys, rfl⟩ := List.append_of_mem hmem
  have hkeyxs : key ∉ xs := by
    have h3 := hndks
    rw [List.nodup_append] at h3
    exact fun h4 => h3.2.2 h4 (List.mem_cons_self key ys)
  cases ys with
  | nil =>
    -- key is the MRU key
    have hlast : (xs ++ [key]).getLast? = some key := List.getLast?_concat xs
    have hsplit := hchain
    rw [chainSeg_append] at hsplit
    simp only [Bool.and_eq_true] at hsplit
    obtain ⟨hxs_chain, hsing⟩ := hsplit
    rw [chainSeg_singleton] at hsing
    obtain ⟨e2, he2, hp2, hn2⟩ := hsing
    rw [he] at he2
    injection he2 with he2
    subst he2
    have hupd := update_ctx_of_next_none he hn2
    have herase : (xs ++ [key]).erase key = xs := by
      rw [List.erase_append_right _ hkeyxs, List.erase_cons_head, List.append_nil]
    rw [herase]
    cases hxs : xs with
    | nil =>
      subst hxs
      have hp3 : e.prev = none := by simpa [lastD] using hp2
      have hlruk : c.lru_key = some key := by rw [hlru]; rfl
      have hmruk : c.mru_key = some key := by rw [hmru]; rfl
      have hkeys1 : keys c.cache = [key] := List.perm_singleton.mp hperm.symm
      have hlenone : c.cache.length = 1 := by
        have h5 : (keys c.cache).length = 1 := by rw [hkeys1]; rfl
        rwa [length_keys] at h5
      refine ⟨{ c with lru_key := none, mru_key := none, cache := aerase c.cache key, current_size := c.current_size - 1 }, ?_, ⟨⟨?_, ?_, ?_, ?_, ?_⟩, ?_, hmax, ?_⟩, ?_, rfl, rfl⟩
      · simp only [delete, he, hupd, hp3, Bool.false_eq_true, if_false, hlruk, hmruk,
          eq_self_iff_true, if_true]
      · show (keys (aerase c.cache key)).Nodup
        rw [keys_aerase, hkeys1, List.erase_cons_head]
        simp
      · show List.Perm [] (keys (aerase c.cache key))
        rw [keys_aerase, hkeys1, List.erase_cons_head]
      · rfl
      · rfl
      · rfl
      · show c.current_size - 1 = _
        have h6 : (keys (aerase c.cache key)).length = 0 := by
          rw [keys_aerase, hkeys1, List.erase_cons_head]
          rfl
        rw [length_keys] at h6
        rw [h6, hsize, hlenone]
        simp
      · show c.current_size - 1 ≤ c.max_size
        omega
      · show alookup (aerase c.cache key) key = none
        exact alookup_aerase_self hnodup
    | cons x0 xs0 =>
      have hxsne : xs ≠ [] := by rw [hxs]; simp
      rw [← hxs]
      obtain ⟨a, ha⟩ : ∃ a, xs.getLast? = some a :=
        ⟨xs.getLast hxsne, List.getLast?_eq_getLast _ hxsne⟩
      have hpa : e.prev = some a := by
        rw [hp2, lastD_eq_getLast? hxsne, ha]
      have hdec : xs.dropLast ++ [a] = xs := List.dropLast_append_getLast? a ha
      have hamem : a ∈ xs := by
        rw [← hdec]
        simp
      have hanek : a ≠ key := fun h7 => hkeyxs (h7 ▸ hamem)
      obtain ⟨ae, hae⟩ := mem_of_chainSeg hxs_chain a hamem
      have hadl : a ∉ xs.dropLast := by
        have h6 : xs.Nodup := by
          have h7 := hndks
          rw [List.nodup_append] at h7
          exact h7.1
        rw [← hdec, List.nodup_append] at h6
        intro hmem2
        exact h6.2.2 hmem2 (by simp)
      have hchain2 : chainSeg (aset c.cache a { ae with next := none }) none xs none := by
        have h8 := chainSeg_set_last_next hadl hae (by rw [hdec]; exact hxs_chain) none
        rwa [hdec] at h8
      have hlrux : c.lru_key = some x0 := by
        rw [hlru, hxs]
        rfl
      have hx0key : x0 ≠ key := fun h9 => hkeyxs (h9 ▸ (hxs ▸ List.mem_cons_self x0 xs0))
      have hc3 : ¬ (c.lru_key = some key) := by
        rw [hlrux]
        intro h9
        injection h9 with h9
        exact hx0key h9
      have hc4 : ¬ ((some a : Option Nat) = some key) := by
        intro h9
        injection h9 with h9
        exact hanek h9
      have hkeyseta : keys (aset c.cache a { ae with next := none }) = keys c.cache :=
        keys_aset_of_mem _ (mem_keys_of_alookup hae)
      have hndseta : (keys (aset c.cache a { ae with next := none })).Nodup := by
        rw [hkeyseta]
        exact hnodup
      refine ⟨{ c with cache := aerase (aset c.cache a { ae with next := none }) key, mru_key := some a, current_size := c.current_size - 1 }, ?_, ⟨⟨?_, ?_, ?_, ?_, ?_⟩, ?_, hmax, ?_⟩, ?_, rfl, rfl⟩
      · simp only [delete, he, hupd, Bool.false_eq_true, if_false, hpa, hae,
          if_neg hc3, if_neg hc4]
      · show (keys (aerase (aset c.cache a { ae with next := none }) key)).Nodup
        rw [keys_aerase]
        exact hndseta.erase key
      · show List.Perm xs (keys (aerase (aset c.cache a { ae with next := none }) key))
        rw [keys_aerase, hkeyseta]
        have h10 := hperm.erase key
        rwa [herase] at h10
      · show chainSeg (aerase (aset c.cache a { ae with next := none }) key) none xs none = true
        rw [chainSeg_aerase_not_mem hkeyxs]
        exact hchain2
      · show c.lru_key = xs.head?
        rw [hlrux, hxs]
        rfl
      · show some a = xs.getLast?
        rw [ha]
      · show c.current_size - 1 =
          ((aerase (aset c.cache a { ae with next := none }) key).length : Int)
        have h11 : (aerase (aset c.cache a { ae with next := none }) key).length + 1 =
            (aset c.cache a { ae with next := none }).length :=
          length_aerase_of_mem (by rw [hkeyseta]; exact hkeymem)
        have h12 : (aset c.cache a { ae with next := none }).length = c.cache.length :=
          length_aset_of_mem _ (mem_keys_of_alookup hae)
        rw [hsize]
        rw [h12] at h11
        omega
      · show c.current_size - 1 ≤ c.max_size
        omega
      · show alookup (aerase (aset c.cache a { ae with next := none }) key) key = none
        exact alookup_aerase_self hndseta
  | cons b ys0 =>
    -- key has a successor: the context update really splices
    have hstep : ∃ c1, update_existing_key_position_context c key = some (true, c1) ∧
        (xs ++ key :: b :: ys0).erase key = xs ++ b :: ys0 ∧
        chainSeg c1.cache none (xs ++ b :: ys0) none = true ∧
        c1.lru_key = (xs ++ b :: ys0).head? ∧ c1.mru_key = (xs ++ b :: ys0).getLast? ∧
        keys c1.cache = keys c.cache ∧
        c1.current_size = c.current_size ∧ c1.max_size = c.max_size := by
      cases hxs2 : xs with
      | nil =>
        subst hxs2
        rw [List.nil_append] at hchain hlru hmru hndks ⊢
        obtain ⟨c1, hupd, hlru1, hmru1, hmax1, hsize1, hkeys1, hchain1, hlook1⟩ :=
          update_ctx_head hchain hndks
        refine ⟨c1, hupd, List.erase_cons_head key _, hchain1, by rw [hlru1]; rfl, ?_,
          hkeys1, hsize1, hmax1⟩
        rw [hmru1, hmru, List.getLast?_cons_cons, List.nil_append]
      | cons x0 xs0 =>
        subst hxs2
        obtain ⟨c1, hupd, hlru1, hmru1, hmax1, hsize1, hkeys1, hchain1, hlook1⟩ :=
          @update_ctx_interior c key (x0 :: xs0) (b :: ys0)
            (by simp) (by simp) hchain hndks
        refine ⟨c1, hupd, ?_, hchain1, ?_, ?_, hkeys1, hsize1, hmax1⟩
        · rw [List.erase_append_right _ hkeyxs, List.erase_cons_head]
        · rw [hlru1, hlru]
          rfl
        · rw [hmru1, hmru,
            List.getLast?_append_of_ne_nil _ (by simp : key :: b :: ys0 ≠ []),
            List.getLast?_cons_cons,
            List.getLast?_append_of_ne_nil _ (by simp : b :: ys0 ≠ [])]
    obtain ⟨c1, hupd, herase, hchain1, hlru1, hmru1, hkeys1, hsize1, hmax1⟩ := hstep
    have hkeytail : key ∉ xs ++ b :: ys0 := by
      have h13 := hndks
      rw [List.nodup_append] at h13
      have h14 : key ∉ (b :: ys0) := (List.nodup_cons.mp h13.2.1).1
      rw [List.mem_append]
      rintro (h15 | h15)
      · exact hkeyxs h15
      · exact h14 h15
    have hne2 : xs ++ b :: ys0 ≠ [] := by simp
    obtain ⟨hd, hhd⟩ : ∃ hd, (xs ++ b :: ys0).head? = some hd := by
      cases h16 : xs ++ b :: ys0 with
      | nil => exact absurd h16 hne2
      | cons p q => exact ⟨p, rfl⟩
    have hhdmem : hd ∈ xs ++ b :: ys0 := by
      cases h16 : xs ++ b :: ys0 with
      | nil => exact absurd h16 hne2
      | cons p q =>
        rw [h16] at hhd
        injection hhd with hhd
        rw [← hhd]
        exact List.mem_cons_self p q
    obtain ⟨gl, hgl⟩ : ∃ gl, (xs ++ b :: ys0).getLast? = some gl :=
      ⟨(xs ++ b :: ys0).getLast hne2, List.getLast?_eq_getLast _ hne2⟩
    have hgldec : (xs ++ b :: ys0).dropLast ++ [gl] = xs ++ b :: ys0 :=
      List.dropLast_append_getLast? gl hgl
    have hglmem : gl ∈ xs ++ b :: ys0 := by
      rw [← hgldec]
      simp
    have hc3 : ¬ (c1.lru_key = some key) := by
      rw [hlru1, hhd]
      intro h16
      injection h16 with h16
      exact hkeytail (h16 ▸ hhdmem)
    have hc4 : ¬ (c1.mru_key = some key) := by
      rw [hmru1, hgl]
      intro h16
      injection h16 with h16
      exact hkeytail (h16 ▸ hglmem)
    have hnd1 : (keys c1.cache).Nodup := by
      rw [hkeys1]
      exact hnodup
    have hkeymem1 : key ∈ keys c1.cache := by
      rw [hkeys1]
      exact hkeymem
    rw [herase]
    refine ⟨{ c1 with cache := aerase c1.cache key, current_size := c1.current_size - 1 }, ?_, ⟨⟨?_, ?_, ?_, ?_, ?_⟩, ?_, ?_, ?_⟩, ?_, ?_, ?_⟩
    · simp only [delete, he, hupd, eq_self_iff_true, if_true, if_neg hc3, if_neg hc4]
    · show (keys (aerase c1.cache key)).Nodup
      rw [keys_aerase]
      exact hnd1.erase key
    · show List.Perm (xs ++ b :: ys0) (keys (aerase c1.cache key))
      rw [keys_aerase, hkeys1]
      have h17 := hperm.erase key
      rwa [herase] at h17
    · show chainSeg (aerase c1.cache key) none (xs ++ b :: ys0) none = true
      rw [chainSeg_aerase_not_mem hkeytail]
      exact hchain1
    · exact hlru1
    · exact hmru1
    · show c1.current_size - 1 = ((aerase c1.cache key).length : Int)
      have h18 : (aerase c1.cache key).length + 1 = c1.cache.length :=
        length_aerase_of_mem hkeymem1
      have h19 : c1.cache.length = c.cache.length := by
        have h20 : (keys c1.cache).length = (keys c.cache).length := by rw [hkeys1]
        rwa [length_keys, length_keys] at h20
      rw [hsize1, hsize]
      rw [h19] at h18
      omega
    · rw [hmax1]
      exact hmax
    · show c1.current_size - 1 ≤ c1.max_size
      rw [hsize1, hmax1]
      omega
    · show alookup (aerase c1.cache key) key = none
      exact alookup_aerase_self hnd1
    · show c1.current_size - 1 = c.current_size - 1
      rw [hsize1]
    · exact hmax1


/-! Size bookkeeping on arbitrary states, including states that violate the
ordering invariant: every completed operation keeps the keys duplicate-free,
keeps `current_size` equal to the number of entries, keeps it within the
capacity, and never changes `max_size`. -/

def SizeInv (c : LRUCache) : Prop :=
  (keys c.cache).Nodup ∧ c.current_size = (c.cache.length : Int) ∧
  1 ≤ c.max_size ∧ c.current_size ≤ c.max_size

theorem update_ctx_fields {c : LRUCache} {key : Nat} {r : Bool} {c1 : LRUCache}
    (h : update_existing_key_position_context c key = some (r, c1)) :
    keys c1.cache = keys c.cache ∧ c1.current_size = c.current_size ∧
    c1.max_size = c.max_size ∧ c1.mru_key = c.mru_key := by
  unfold update_existing_key_position_context at h
  split at h
  · exact absurd h (by simp)
  next pi hpi =>
    split at h
    · injection h with h
      injection h with h1 h2
      subst h2
      exact ⟨rfl, rfl, rfl, rfl⟩
    next nk hnk =>
      split at h
      · split at h
        · exact absurd h (by simp)
        next ne hne =>
          injection h with h
          injection h with h1 h2
          subst h2
          exact ⟨keys_aset_of_mem _ (mem_keys_of_alookup hne), rfl, rfl, rfl⟩
      next pk hpk =>
        split at h
        · exact absurd h (by simp)
        next pe hpe =>
          dsimp only [] at h
          split at h
          · exact absurd h (by simp)
          next ne hne =>
            injection h with h
            injection h with h1 h2
            subst h2
            refine ⟨?_, rfl, rfl, rfl⟩
            rw [keys_aset_of_mem _ (mem_keys_of_alookup hne),
              keys_aset_of_mem _ (mem_keys_of_alookup hpe)]

theorem put_tail_fields {c : LRUCache} {key : Nat} {v : Option Nat} {c1 : LRUCache}
    (h : put_tail c key v = some c1) :
    c1.current_size = c.current_size ∧ c1.max_size = c.max_size ∧
    c1.mru_key = some key ∧
    (key ∈ keys c.cache → keys c1.cache = keys c.cache) ∧
    (key ∉ keys c.cache → keys c1.cache = keys c.cache ++ [key]) := by
  unfold put_tail at h
  split at h
  · injection h with h
    subst h
    obtain ⟨hcache, hmr, hlr, hmax2, hsize2⟩ := put_tail_finish_fields c key v
    refine ⟨hsize2, hmax2, hmr, ?_, ?_⟩
    · intro hmem
      rw [hcache]
      exact keys_aset_of_mem _ hmem
    · intro hmem
      rw [hcache]
      exact keys_aset_of_not_mem _ hmem
  next mk hmk =>
    split at h
    · exact absurd h (by simp)
    next me hme =>
      injection h with h
      subst h
      obtain ⟨hcache, hmr, hlr, hmax2, hsize2⟩ :=
        put_tail_finish_fields { c with cache := aset c.cache mk { me with next := some key } } key v
      have hkeysmid : keys (aset c.cache mk { me with next := some key }) = keys c.cache :=
        keys_aset_of_mem _ (mem_keys_of_alookup hme)
      refine ⟨hsize2, hmax2, hmr, ?_, ?_⟩
      · intro hmem
        rw [hcache]
        show keys (aset (aset c.cache mk { me with next := some key }) key _) = _
        rw [keys_aset_of_mem _ (by rwa [hkeysmid]), hkeysmid]
      · intro hmem
        rw [hcache]
        show keys (aset (aset c.cache mk { me with next := some key }) key _) = _
        rw [keys_aset_of_not_mem _ (by rwa [hkeysmid]), hkeysmid]

theorem put_preserves_SizeInv {c : LRUCache} {key : Nat} {v : Option Nat} {c1 : LRUCache}
    (hinv : SizeInv c) (h : put c key v = some c1) : SizeInv c1 := by
  obtain ⟨hnd, hsz, hmx, hbd⟩ := hinv
  unfold put at h
  split at h
  -- existing key
  next e0 he0 =>
    have hkeymem : key ∈ keys c.cache := mem_keys_of_alookup he0
    split at h
    · exact absurd h (by simp)
    · -- context unchanged: only the value is updated
      next c2 hupd =>
      obtain ⟨hkeys2, hsize2, hmax2, _⟩ := update_ctx_fields hupd
      split at h
      · exact absurd h (by simp)
      next e he =>
        injection h with h
        subst h
        have hkeys3 : keys (aset c2.cache key { e with value := v }) = keys c2.cache :=
          keys_aset_of_mem _ (mem_keys_of_alookup he)
        have hlen3 : (aset c2.cache key { e with value := v }).length = c.cache.length := by
          have h5 : (keys (aset c2.cache key { e with value := v })).length =
              (keys c.cache).length := by rw [hkeys3, hkeys2]
          rwa [length_keys, length_keys] at h5
        exact ⟨by rw [hkeys3, hkeys2]; exact hnd, by rw [hsize2, hlen3]; exact hsz,
          by rw [hmax2]; exact hmx, by rw [hsize2, hmax2]; exact hbd⟩
    · -- context changed: fall through to the shared tail
      next c2 hupd =>
      obtain ⟨hkeys2, hsize2, hmax2, _⟩ := update_ctx_fields hupd
      obtain ⟨hsize3, hmax3, _, hkmem, _⟩ := put_tail_fields h
      have hkeys3 : keys c1.cache = keys c.cache := by
        rw [hkmem (by rwa [hkeys2]), hkeys2]
      have hlen3 : c1.cache.length = c.cache.length := by
        have h5 : (keys c1.cache).length = (keys c.cache).length := by rw [hkeys3]
        rwa [length_keys, length_keys] at h5
      exact ⟨by rw [hkeys3]; exact hnd, by rw [hsize3, hsize2, hlen3]; exact hsz,
        by rw [hmax3, hmax2]; exact hmx, by rw [hsize3, hsize2, hmax3, hmax2]; exact hbd⟩
  -- new key
  next habs =>
    have hkeyabs : key ∉ keys c.cache := (alookup_eq_none_iff _ _).mp habs
    split at h
    · -- at capacity: evict
      next hfull =>
      split at h
      · exact absurd h (by simp)
      next lk hlk =>
        split at h
        · exact absurd h (by simp)
        next le hle =>
          have hlkmem : lk ∈ keys c.cache := mem_keys_of_alookup hle
          have hlkpos : 0 < c.cache.length := by
            have h7 : keys c.cache ≠ [] := List.ne_nil_of_mem hlkmem
            have h8 : 0 < (keys c.cache).length := List.length_pos.mpr h7
            rwa [length_keys] at h8
          split at h
          · -- capacity one: the evicted key had no successor
            injection h with h
            subst h
            have hkeyser : key ∉ keys (aerase c.cache lk) := by
              rw [keys_aerase]
              intro h9
              exact hkeyabs (List.mem_of_mem_erase h9)
            have hkeys4 : keys (aset (aerase c.cache lk) key ⟨v, none, none⟩) =
                (keys c.cache).erase lk ++ [key] := by
              rw [keys_aset_of_not_mem _ hkeyser, keys_aerase]
            have hlen4 : (aset (aerase c.cache lk) key ⟨v, none, none⟩).length =
                c.cache.length := by
              have h5 : (keys (aset (aerase c.cache lk) key ⟨v, none, none⟩)).length =
                  ((keys c.cache).erase lk ++ [key]).length := by rw [hkeys4]
              rw [length_keys] at h5
              have h6 : ((keys c.cache).erase lk).length = (keys c.cache).length - 1 :=
                List.length_erase_of_mem hlkmem
              have h7 := length_keys c.cache
              simp [h6] at h5
              omega
            refine ⟨?_, ?_, hmx, hbd⟩
            · show (keys (aset (aerase c.cache lk) key ⟨v, none, none⟩)).Nodup
              rw [hkeys4]
              simp only [List.nodup_append]
              refine ⟨hnd.erase lk, by simp, ?_⟩
              intro x hx
              simp
              intro hxk
              subst hxk
              exact hkeyabs (List.mem_of_mem_erase hx)
            · show c.current_size = _
              rw [hlen4]
              exact hsz
          next upcoming hup =>
            split at h
            · exact absurd h (by simp)
            next ue hue =>
              obtain ⟨hsize3, hmax3, _, _, hknot⟩ := put_tail_fields h
              have hupmem : upcoming ∈ keys c.cache := mem_keys_of_alookup hue
              have hkeysmid : keys (aset c.cache upcoming { ue with prev := none }) =
                  keys c.cache := keys_aset_of_mem _ hupmem
              have hkeyser : key ∉ keys (aerase (aset c.cache upcoming { ue with prev := none }) lk) := by
                rw [keys_aerase, hkeysmid]
                intro h9
                exact hkeyabs (List.mem_of_mem_erase h9)
              have hkeys4 : keys c1.cache = (keys c.cache).erase lk ++ [key] := by
                rw [hknot hkeyser, keys_aerase, hkeysmid]
              have hlen4 : c1.cache.length = c.cache.length := by
                have h5 : (keys c1.cache).length = ((keys c.cache).erase lk ++ [key]).length := by
                  rw [hkeys4]
                rw [length_keys] at h5
                have h6 : ((keys c.cache).erase lk).length = (keys c.cache).length - 1 :=
                  List.length_erase_of_mem hlkmem
                have h7 := length_keys c.cache
                simp [h6] at h5
                omega
              refine ⟨?_, ?_, by rw [hmax3]; exact hmx, by rw [hsize3, hmax3]; exact hbd⟩
              · rw [hkeys4]
                simp only [List.nodup_append]
                refine ⟨hnd.erase lk, by simp, ?_⟩
                intro x hx
                simp
                intro hxk
                subst hxk
                exact hkeyabs (List.mem_of_mem_erase hx)
              · rw [hsize3, hlen4]
                exact hsz
    · -- below capacity
      next hnotfull =>
      obtain ⟨hsize3, hmax3, _, _, hknot⟩ := put_tail_fields h
      have hkeys4 : keys c1.cache = keys c.cache ++ [key] := hknot hkeyabs
      have hlen4 : c1.cache.length = c.cache.length + 1 := by
        have h5 : (keys c1.cache).length = (keys c.cache ++ [key]).length := by rw [hkeys4]
        rw [length_keys] at h5
        have h7 := length_keys c.cache
        simp at h5
        omega
      refine ⟨?_, ?_, by rw [hmax3]; exact hmx, ?_⟩
      · rw [hkeys4]
        simp [List.nodup_append, hnd, hkeyabs]
      · rw [hsize3, hlen4]
        show c.current_size + 1 = _
        rw [hsz]
        push_cast
        ring
      · rw [hsize3, hmax3]
        show c.current_size + 1 ≤ c.max_size
        omega


theorem get_preserves_SizeInv {c : LRUCache} {key : Nat} {vv : Option Nat} {c1 : LRUCache}
    (hinv : SizeInv c) (h : get c key = some (vv, c1)) : SizeInv c1 := by
  obtain ⟨hnd, hsz, hmx, hbd⟩ := hinv
  unfold get at h
  split at h
  · -- missing key: state unchanged
    injection h with h
    injection h with h1 h2
    subst h2
    exact ⟨hnd, hsz, hmx, hbd⟩
  next e he =>
    have hkeymem : key ∈ keys c.cache := mem_keys_of_alookup he
    split at h
    · exact absurd h (by simp)
    next r c2 hupd =>
      obtain ⟨hkeys2, hsize2, hmax2, _⟩ := update_ctx_fields hupd
      split at h
      · -- no MRU key recorded: only the MRU pointer moves
        injection h with h
        injection h with h1 h2
        subst h2
        have hlen2 : c2.cache.length = c.cache.length := by
          have h5 : (keys c2.cache).length = (keys c.cache).length := by rw [hkeys2]
          rwa [length_keys, length_keys] at h5
        exact ⟨by rw [hkeys2]; exact hnd, by rw [hsize2, hlen2]; exact hsz,
          by rw [hmax2]; exact hmx, by rw [hsize2, hmax2]; exact hbd⟩
      next mk hmk =>
        split at h
        · exact absurd h (by simp)
        next me hme =>
          try dsimp only [] at h
          split at h
          · exact absurd h (by simp)
          next ke hke =>
            try dsimp only [] at h
            split at h
            · exact absurd h (by simp)
            next ke2 hke2 =>
              injection h with h
              injection h with h1 h2
              subst h2
              have hmkmem : mk ∈ keys c2.cache := mem_keys_of_alookup hme
              have hkeys3 : keys (aset c2.cache mk { me with next := some key }) =
                  keys c2.cache := keys_aset_of_mem _ hmkmem
              have hkeys4 :
                  keys (aset (aset c2.cache mk { me with next := some key }) key
                    { ke with prev := some mk }) = keys c2.cache := by
                rw [keys_aset_of_mem _ (mem_keys_of_alookup hke), hkeys3]
              have hkeys5 :
                  keys (aset (aset (aset c2.cache mk { me with next := some key }) key
                    { ke with prev := some mk }) key { ke2 with next := none }) =
                  keys c2.cache := by
                rw [keys_aset_of_mem _ (mem_keys_of_alookup hke2), hkeys4]
              have hlen5 : (aset (aset (aset c2.cache mk { me with next := some key }) key
                  { ke with prev := some mk }) key { ke2 with next := none }).length =
                  c.cache.length := by
                have h5 := congrArg List.length (hkeys5.trans hkeys2)
                rwa [length_keys, length_keys] at h5
              refine ⟨?_, ?_, by rw [hmax2]; exact hmx, by rw [hsize2, hmax2]; exact hbd⟩
              · show (keys (aset (aset (aset c2.cache mk { me with next := some key }) key
                  { ke with prev := some mk }) key { ke2 with next := none })).Nodup
                rw [hkeys5, hkeys2]
                exact hnd
              · show c2.current_size = _
                rw [hsize2, hlen5]
                exact hsz

theorem delete_preserves_SizeInv {c : LRUCache} {key : Nat} {c1 : LRUCache}
    (hinv : SizeInv c) (h : delete c key = some c1) : SizeInv c1 := by
  obtain ⟨hnd, hsz, hmx, hbd⟩ := hinv
  unfold delete at h
  split at h
  · injection h with h
    subst h
    exact ⟨hnd, hsz, hmx, hbd⟩
  next e0 he0 =>
    have hkeymem : key ∈ keys c.cache := mem_keys_of_alookup he0
    split at h
    · exact absurd h (by simp)
    next changed c2 hupd =>
      obtain ⟨hkeys2, hsize2, hmax2, _⟩ := update_ctx_fields hupd
      dsimp only [] at h
      split at h
      · exact absurd h (by simp)
      next c3 h3 =>
        have hfacts : keys c3.cache = keys c2.cache ∧ c3.current_size = c2.current_size ∧
            c3.max_size = c2.max_size := by
          split at h3
          · injection h3 with h3
            subst h3
            exact ⟨rfl, rfl, rfl⟩
          · split at h3
            · exact absurd h3 (by simp)
            next ke hke =>
              split at h3
              · injection h3 with h3
                subst h3
                exact ⟨rfl, rfl, rfl⟩
              next nm hnm =>
                split at h3
                · exact absurd h3 (by simp)
                next ne hne =>
                  injection h3 with h3
                  subst h3
                  exact ⟨keys_aset_of_mem _ (mem_keys_of_alookup hne), rfl, rfl⟩
        obtain ⟨hkeys3, hsize3, hmax3⟩ := hfacts
        have hSfin : ∀ c4 : LRUCache, keys c4.cache = keys c3.cache →
            c4.current_size = c3.current_size → c4.max_size = c3.max_size →
            SizeInv { c4 with cache := aerase c4.cache key,
                              current_size := c4.current_size - 1 } := by
          intro c4 hk4 hs4 hm4
          have hkey4 : key ∈ keys c4.cache := by
            rw [hk4, hkeys3, hkeys2]
            exact hkeymem
          have hnd4 : (keys c4.cache).Nodup := by
            rw [hk4, hkeys3, hkeys2]
            exact hnd
          have hlen4 : (aerase c4.cache key).length + 1 = c4.cache.length :=
            length_aerase_of_mem hkey4
          have hlen4b : c4.cache.length = c.cache.length := by
            have h5 := congrArg List.length ((hk4.trans hkeys3).trans hkeys2)
            rwa [length_keys, length_keys] at h5
          refine ⟨?_, ?_, ?_, ?_⟩
          · show (keys (aerase c4.cache key)).Nodup
            rw [keys_aerase]
            exact hnd4.erase key
          · show c4.current_size - 1 = ((aerase c4.cache key).length : Int)
            rw [hs4, hsize3, hsize2, hsz]
            rw [hlen4b] at hlen4
            omega
          · show 1 ≤ c4.max_size
            rw [hm4, hmax3, hmax2]
            exact hmx
          · show c4.current_size - 1 ≤ c4.max_size
            rw [hs4, hsize3, hsize2, hm4, hmax3, hmax2]
            omega
        split at h
        · split at h
          · injection h with h
            subst h
            exact hSfin _ rfl rfl rfl
          · injection h with h
            subst h
            exact hSfin _ rfl rfl rfl
        · split at h
          · injection h with h
            subst h
            exact hSfin _ rfl rfl rfl
          · injection h with h
            subst h
            exact hSfin _ rfl rfl rfl

theorem reset_preserves_SizeInv {c : LRUCache} (hinv : SizeInv c) :
    SizeInv (reset c) := by
  obtain ⟨hnd, hsz, hmx, hbd⟩ := hinv
  exact ⟨by simp [reset, keys], by simp [reset], hmx, by show (0 : Int) ≤ c.max_size; omega⟩

theorem put_max_size {c : LRUCache} {key : Nat} {v : Option Nat} {c1 : LRUCache}
    (h : put c key v = some c1) : c1.max_size = c.max_size := by
  unfold put at h
  split at h
  next e0 he0 =>
    split at h
    · exact absurd h (by simp)
    · next c2 hupd =>
      obtain ⟨_, _, hmax2, _⟩ := update_ctx_fields hupd
      split at h
      · exact absurd h (by simp)
      next e he =>
        injection h with h
        subst h
        exact hmax2
    · next c2 hupd =>
      obtain ⟨_, _, hmax2, _⟩ := update_ctx_fields hupd
      obtain ⟨_, hmax3, _, _, _⟩ := put_tail_fields h
      rw [hmax3, hmax2]
  next habs =>
    split at h
    next hfull =>
      split at h
      · exact absurd h (by simp)
      next lk hlk =>
        split at h
        · exact absurd h (by simp)
        next le hle =>
          split at h
          · injection h with h
            subst h
            rfl
          next up hup =>
            split at h
            · exact absurd h (by simp)
            next ue hue =>
              obtain ⟨_, hmax3, _, _, _⟩ := put_tail_fields h
              exact hmax3
    next hnotfull =>
      obtain ⟨_, hmax3, _, _, _⟩ := put_tail_fields h
      exact hmax3

theorem get_max_size {c : LRUCache} {key : Nat} {vv : Option Nat} {c1 : LRUCache}
    (h : get c key = some (vv, c1)) : c1.max_size = c.max_size := by
  unfold get at h
  split at h
  · injection h with h
    injection h with h1 h2
    subst h2
    rfl
  next e he =>
    split at h
    · exact absurd h (by simp)
    next r c3 hupd =>
      obtain ⟨_, _, hmax2, _⟩ := update_ctx_fields hupd
      split at h
      · injection h with h
        injection h with h1 h2
        subst h2
        exact hmax2
      next mk hmk =>
        split at h
        · exact absurd h (by simp)
        next me hme =>
          try dsimp only [] at h
          split at h
          · exact absurd h (by simp)
          next ke hke =>
            try dsimp only [] at h
            split at h
            · exact absurd h (by simp)
            next ke2 hke2 =>
              injection h with h
              injection h with h1 h2
              subst h2
              exact hmax2

theorem delete_max_size {c : LRUCache} {key : Nat} {c1 : LRUCache}
    (h : delete c key = some c1) : c1.max_size = c.max_size := by
  unfold delete at h
  split at h
  · injection h with h
    subst h
    rfl
  next e0 he0 =>
    split at h
    · exact absurd h (by simp)
    next changed c2 hupd =>
      obtain ⟨_, _, hmax2, _⟩ := update_ctx_fields hupd
      try dsimp only [] at h
      split at h
      · exact absurd h (by simp)
      next c3 h3 =>
        have hmax3 : c3.max_size = c2.max_size := by
          split at h3
          · injection h3 with h3
            subst h3
            rfl
          · split at h3
            · exact absurd h3 (by simp)
            next ke hke =>
              split at h3
              · injection h3 with h3
                subst h3
                rfl
              next nm hnm =>
                split at h3
                · exact absurd h3 (by simp)
                next ne hne =>
                  injection h3 with h3
                  subst h3
                  rfl
        split at h
        · split at h
          · injection h with h
            subst h
            rw [hmax3, hmax2]
          · injection h with h
            subst h
            rw [hmax3, hmax2]
        · split at h
          · injection h with h
            subst h
            rw [hmax3, hmax2]
          · injection h with h
            subst h
            rw [hmax3, hmax2]

theorem step_preserves_SizeInv {c : LRUCache} {op : Op} {c1 : LRUCache}
    (hinv : SizeInv c) (h : step c op = some c1) : SizeInv c1 := by
  cases op with
  | put k v => exact put_preserves_SizeInv hinv h
  | get k =>
    have h2 : (LRU.get c k).map Prod.snd = some c1 := h
    rw [Option.map_eq_some'] at h2
    obtain ⟨⟨vv, c2⟩, hg, hc2⟩ := h2
    subst hc2
    exact get_preserves_SizeInv hinv hg
  | del k => exact delete_preserves_SizeInv hinv h
  | reset =>
    injection h with h
    subst h
    exact reset_preserves_SizeInv hinv

theorem step_max_size {c : LRUCache} {op : Op} {c1 : LRUCache}
    (h : step c op = some c1) : c1.max_size = c.max_size := by
  cases op with
  | put k v => exact put_max_size h
  | get k =>
    have h2 : (LRU.get c k).map Prod.snd = some c1 := h
    rw [Option.map_eq_some'] at h2
    obtain ⟨⟨vv, c2⟩, hg, hc2⟩ := h2
    subst hc2
    exact get_max_size hg
  | del k => exact delete_max_size h
  | reset =>
    injection h with h
    subst h
    rfl

theorem runOps_preserves_SizeInv {c : LRUCache} {ops : List Op} {c1 : LRUCache}
    (hinv : SizeInv c) (h : runOps c ops = some c1) : SizeInv c1 := by
  induction ops generalizing c with
  | nil =>
    injection h with h
    subst h
    exact hinv
  | cons op ops ih =>
    unfold runOps at h
    split at h
    · exact absurd h (by simp)
    next c2 hstep =>
      exact ih (step_preserves_SizeInv hinv hstep) h

theorem runOps_max_size {c : LRUCache} {ops : List Op} {c1 : LRUCache}
    (h : runOps c ops = some c1) : c1.max_size = c.max_size := by
  induction ops generalizing c with
  | nil =>
    injection h with h
    subst h
    rfl
  | cons op ops ih =>
    unfold runOps at h
    split at h
    · exact absurd h (by simp)
    next c2 hstep =>
      rw [ih h, step_max_size hstep]

theorem create_SizeInv {cap : Int} {c : LRUCache} (h : create cap = Except.ok c) :
    SizeInv c := by
  unfold create at h
  split at h
  · exact absurd h (by simp)
  next hge =>
    injection h with h
    subst h
    refine ⟨by simp [keys], by simp, by show (1 : Int) ≤ cap; omega,
      by show (0 : Int) ≤ cap; omega⟩

theorem reachable_SizeInv {c : LRUCache} (h : Reachable c) : SizeInv c := by
  obtain ⟨cap, c0, ops, hcreate, hrun⟩ := h
  exact runOps_preserves_SizeInv (create_SizeInv hcreate) hrun



instance (c : LRUCache) (ks : List Nat) : Decidable (Ordered c ks) := by
  unfold Ordered
  infer_instance

instance (c : LRUCache) (ks : List Nat) : Decidable (Valid c ks) := by
  unfold Valid
  infer_instance

/-! Shared helper for the round-trip claims: after any successful `put`, a
`get` of the same key returns the value just stored. -/

theorem put_then_get_value {c : LRUCache} {ks : List Nat} (k : Nat) (v : Option Nat)
    (hval : Valid c ks) :
    ∃ c' c'', put c k v = some c' ∧ get c' k = some (v, c'') := by
  cases he : alookup c.cache k with
  | some e =>
    have hmem : k ∈ ks := hval.1.2.1.mem_iff.mpr (mem_keys_of_alookup he)
    by_cases hlast : ks.getLast? = some k
    · obtain ⟨hput, hval2, hlook⟩ := put_existing_mru v hval hlast he
      have hnext : e.next = none := chain_last_next hval.1.2.2.1 hlast he
      have hmru2 : ({ c with cache := aset c.cache k { e with value := v } } :
          LRUCache).mru_key = some k := by
        show c.mru_key = some k
        rw [hval.1.2.2.2.2, hlast]
      exact ⟨_, _, hput,
        get_at_mru hlook (show ({ e with value := v } : Entry).next = none from hnext) hmru2⟩
    · obtain ⟨c', hput, hval2, hmru2, hlru2, hsz2, hmx2, hlook⟩ :=
        put_existing_move v hval hmem hlast
      exact ⟨c', _, hput, get_at_mru hlook rfl hmru2⟩
  | none =>
    by_cases hfull : c.current_size = c.max_size
    · obtain ⟨c', hput, hval2, hmru2, hlru2, hsz2, hmx2, hevict, e, hlook, hev, hen⟩ :=
        put_new_full v hval he hfull
      have hg := get_at_mru hlook hen hmru2
      rw [hev] at hg
      exact ⟨c', _, hput, hg⟩
    · obtain ⟨c', hput, hval2, hmru2, hlru2, hsz2, hmx2, hlook⟩ :=
        put_new_room v hval he hfull
      exact ⟨c', _, hput, get_at_mru hlook rfl hmru2⟩

/-! The claims. -/

/-- C1: the claim that every operation (put, get, delete, reset) on a validly
constructed cache preserves the ordering invariant is violated by the code:
`get` on a key that is already the MRU key rewrites that entry's `prev` link
to point at the key itself (lines 113-116 run even though
`_update_existing_key_position_context` reported that nothing needed to
change), so after `create(1); put(0,5); get(0)` no key list satisfies the
ordering invariant: the single entry's `prev` is `some 0` instead of `none`. -/
theorem get_breaks_ordering_invariant :
    ∃ c0 c1 c2 : LRUCache,
      create 1 = Except.ok c0 ∧
      put c0 0 (some 5) = some c1 ∧
      Valid c1 [0] ∧
      get c1 0 = some (some 5, c2) ∧
      alookup c2.cache 0 = some ⟨some 5, some 0, none⟩ ∧
      ∀ ks : List Nat, ¬ Ordered c2 ks := by
  refine ⟨⟨1, 0, none, none, []⟩, ⟨1, 1, some 0, some 0, [(0, ⟨some 5, none, none⟩)]⟩,
    ⟨1, 1, some 0, some 0, [(0, ⟨some 5, some 0, none⟩)]⟩,
    rfl, by decide, by decide, by decide, by decide, ?_⟩
  intro ks hord
  obtain ⟨hnd, hperm, hchain, hlru, hmru⟩ := hord
  have hks : ks = [0] := List.perm_singleton.mp hperm
  subst hks
  exact absurd hchain (by decide)

/-- C2: the claim that `get` on the current MRU key leaves the cache state
observably unchanged is violated by the code: the reorder-to-MRU step is not
a no-op when the key is already MRU.  After `put(0,1); put(1,2)` on a
capacity-2 cache, `get(1)` rewrites entry 1's `prev` link from `some 0` to
`some 1`; the difference is observable through the public interface, since
`delete(1); get(0)` completes normally from the pre-`get` state but raises
`KeyError` (modelled as `none`) from the post-`get` state. -/
theorem get_on_mru_not_observably_noop :
    ∃ c0 cB cA : LRUCache,
      create 2 = Except.ok c0 ∧
      runOps c0 [Op.put 0 (some 1), Op.put 1 (some 2)] = some cB ∧
      cB.mru_key = some 1 ∧
      get cB 1 = some (some 2, cA) ∧
      cA ≠ cB ∧
      alookup cB.cache 1 = some ⟨some 2, some 0, none⟩ ∧
      alookup cA.cache 1 = some ⟨some 2, some 1, none⟩ ∧
      (∃ cX, runOps cB [Op.del 1, Op.get 0] = some cX) ∧
      runOps cA [Op.del 1, Op.get 0] = none := by
  exact ⟨⟨2, 0, none, none, []⟩,
    ⟨2, 2, some 0, some 1, [(0, ⟨some 1, none, some 1⟩), (1, ⟨some 2, some 0, none⟩)]⟩,
    ⟨2, 2, some 0, some 1, [(0, ⟨some 1, none, some 1⟩), (1, ⟨some 2, some 1, none⟩)]⟩,
    rfl, by decide, by decide, by decide, by decide, by decide, by decide,
    ⟨⟨2, 1, some 0, some 0, [(0, ⟨some 1, some 0, none⟩)]⟩, by decide⟩, by decide⟩

/-- C3: the claim that `get` never raises an error is violated by the code:
on a capacity-2 cache, after `put(0,1); put(1,2); get(1); delete(1)` the
remaining entry 0 keeps a dangling successor link to the deleted key 1, and
`get(0)` then executes `self._cache[1]['prev'] = None` inside
`_update_existing_key_position_context`, raising `KeyError` (modelled as the
outer `none`). -/
theorem get_raises_keyerror :
    ∃ c0 cY : LRUCache,
      create 2 = Except.ok c0 ∧
      runOps c0 [Op.put 0 (some 1), Op.put 1 (some 2), Op.get 1, Op.del 1] = some cY ∧
      alookup cY.cache 0 = some ⟨some 1, none, some 1⟩ ∧
      alookup cY.cache 1 = none ∧
      get cY 0 = none := by
  exact ⟨⟨2, 0, none, none, []⟩, ⟨2, 1, some 0, none, [(0, ⟨some 1, none, some 1⟩)]⟩,
    rfl, by decide, by decide, by decide, by decide⟩

/-- C4: on a consistent cache at full capacity, `put` of a fresh key removes
exactly the current least-recently-used entry from the map, advances
`lru_key` to its successor (or to the new key when capacity is 1), inserts
the new key at the most-recently-used end, keeps the resulting state
consistent with recency order `ks.tail ++ [key]`, and leaves the size equal
to the capacity. -/
theorem put_at_capacity_evicts_lru (c : LRUCache) (ks : List Nat) (key : Nat)
    (v : Option Nat) (hval : Valid c ks) (habs : alookup c.cache key = none)
    (hfull : c.current_size = c.max_size) :
    ∃ c', put c key v = some c' ∧
      Valid c' (ks.tail ++ [key]) ∧
      (∀ l, c.lru_key = some l → alookup c'.cache l = none) ∧
      c'.lru_key = some (ks.tail.headD key) ∧
      c'.mru_key = some key ∧
      (∃ e, alookup c'.cache key = some e ∧ e.value = v) ∧
      c'.current_size = c.max_size := by
  obtain ⟨c', hput, hval2, hmru2, hlru2, hsz2, hmx2, hevict, e, hlook, hev, hen⟩ :=
    put_new_full v hval habs hfull
  exact ⟨c', hput, hval2, hevict, hlru2, hmru2, ⟨e, hlook, hev⟩, by rw [hsz2, hfull]⟩

/-- C5: on a consistent cache, `get` of a present key returns the stored
value and makes the key the most-recently-used key; when the key was not
already MRU the state stays consistent with the key spliced out of its old
position and appended at the MRU end, and whenever at least two keys are
present the key is not the next eviction victim; `get` of an absent key
returns the not-found indicator `none` and leaves the state unchanged. -/
theorem get_marks_most_recently_used (c : LRUCache) (ks : List Nat) (key : Nat)
    (hval : Valid c ks) :
    (∀ e, alookup c.cache key = some e →
      ∃ c', get c key = some (e.value, c') ∧
        c'.mru_key = some key ∧
        (2 ≤ ks.length → c'.lru_key ≠ some key) ∧
        (c.mru_key ≠ some key → Valid c' (ks.erase key ++ [key]))) ∧
    (alookup c.cache key = none → get c key = some (none, c)) := by
  constructor
  · intro e he
    have hmem : key ∈ ks := hval.1.2.1.mem_iff.mpr (mem_keys_of_alookup he)
    have hndks : ks.Nodup := hval.1.2.1.nodup_iff.mpr hval.1.1
    by_cases hlast : ks.getLast? = some key
    · -- key is already the MRU key: the buggy in-place rewrite still returns
      -- the right value and keeps the key at the MRU position
      have hnext : e.next = none := chain_last_next hval.1.2.2.1 hlast he
      have hmruk : c.mru_key = some key := by rw [hval.1.2.2.2.2, hlast]
      refine ⟨_, get_at_mru he hnext hmruk, rfl, ?_, ?_⟩
      · intro hlen
        show c.lru_key ≠ some key
        rw [hval.1.2.2.2.1]
        obtain ⟨h0, t0, rfl⟩ : ∃ h0 t0, ks = h0 :: t0 := by
          cases ks with
          | nil => simp at hmem
          | cons h0 t0 => exact ⟨h0, t0, rfl⟩
        intro hcontra
        injection hcontra with hcontra
        have ht0ne : t0 ≠ [] := by
          rintro rfl
          simp at hlen
        have hkey_t0 : key ∈ t0 := by
          have h5 : (h0 :: t0).getLast? = t0.getLast? := by
            cases t0 with
            | nil => exact absurd rfl ht0ne
            | cons a b => exact List.getLast?_cons_cons
          rw [h5] at hlast
          have h6 : t0.dropLast ++ [key] = t0 := List.dropLast_append_getLast? key hlast
          rw [← h6]
          simp
        exact (List.nodup_cons.mp (hcontra ▸ hndks)).1 hkey_t0
      · intro hcontra
        exact absurd hmruk hcontra
    · obtain ⟨e2, c', he2, hget, hval2, hmru2, hlru2, hsz2, hmx2⟩ :=
        get_move hval hmem hlast
      rw [he] at he2
      injection he2 with he2
      subst he2
      refine ⟨c', hget, hmru2, ?_, fun _ => hval2⟩
      intro hlen
      rw [hlru2]
      have hkne : key ∉ ks.erase key := fun h5 =>
        ((List.Nodup.mem_erase_iff hndks).mp h5).1 rfl
      have herasene : ks.erase key ≠ [] := by
        intro h5
        have h6 : (ks.erase key).length = ks.length - 1 := List.length_erase_of_mem hmem
        rw [h5] at h6
        simp at h6
        omega
      obtain ⟨h0, t0, h7⟩ : ∃ h0 t0, ks.erase key = h0 :: t0 := by
        cases h8 : ks.erase key with
        | nil => exact absurd h8 herasene
        | cons h0 t0 => exact ⟨h0, t0, rfl⟩
      rw [h7]
      intro hcontra
      injection hcontra with hcontra
      subst hcontra
      exact hkne (by rw [h7]; exact List.mem_cons_self _ _)
  · exact get_absent

/-- C6: on a consistent cache, `delete` of a present key removes it, keeps
the state consistent with the key spliced out of the recency order,
decrements the size by exactly one, and a subsequent `get` of the key
returns the not-found indicator; `delete` of an absent key returns the state
completely unchanged, raising no error. -/
theorem delete_removes_and_decrements (c : LRUCache) (ks : List Nat) (key : Nat)
    (hval : Valid c ks) :
    ((∃ e, alookup c.cache key = some e) →
      ∃ c', delete c key = some c' ∧
        Valid c' (ks.erase key) ∧
        alookup c'.cache key = none ∧
        c'.current_size = c.current_size - 1 ∧
        get c' key = some (none, c')) ∧
    (alookup c.cache key = none → delete c key = some c) := by
  constructor
  · rintro ⟨e, he⟩
    have hmem : key ∈ ks := hval.1.2.1.mem_iff.mpr (mem_keys_of_alookup he)
    obtain ⟨c', hdel, hval2, hgone, hsz2, hmx2⟩ := delete_present hval hmem
    exact ⟨c', hdel, hval2, hgone, hsz2, get_absent hgone⟩
  · exact delete_absent

/-- C7: `create(capacity)` fails with the invalid-capacity error exactly when
the capacity is below 1, producing no cache; otherwise it succeeds with the
empty initial state carrying the given capacity, and no later operation ever
changes `max_size`, so the accessor keeps returning that capacity. -/
theorem create_capacity_validation (ms : Int) :
    (ms < 1 → create ms = Except.error CreateError.invalidCapacity) ∧
    (1 ≤ ms → create ms = Except.ok ⟨ms, 0, none, none, []⟩) ∧
    (∀ (c c1 : LRUCache) (op : Op), step c op = some c1 →
      c1.max_size = c.max_size) := by
  refine ⟨?_, ?_, fun c c1 op h => step_max_size h⟩
  · intro h
    simp [create, h]
  · intro h
    simp [create, show ¬ ms < 1 by omega]

/-- C8: on every state reachable from a validly constructed cache by a
sequence of completed operations, the size stays within bounds:
`0 ≤ current_size ≤ max_size`. -/
theorem size_within_bounds (c : LRUCache) (h : Reachable c) :
    0 ≤ c.current_size ∧ c.current_size ≤ c.max_size := by
  obtain ⟨hnd, hsz, hmx, hbd⟩ := reachable_SizeInv h
  refine ⟨?_, hbd⟩
  rw [hsz]
  omega

/-- C9: round-trip: on a consistent cache, `put(k, v)` immediately followed
by `get(k)` returns exactly `v`, for every key and value. -/
theorem put_then_get_roundtrip (c : LRUCache) (ks : List Nat) (k : Nat)
    (v : Option Nat) (hval : Valid c ks) :
    ∃ c' c'', put c k v = some c' ∧ get c' k = some (v, c'') :=
  put_then_get_value k v hval

/-- C10: the not-found indicator of `get` is the value `None` itself: `get`
of an absent key returns `none`, and after `put(k, None)` a `get(k)` also
returns `none`, so a caller cannot distinguish through `get` a stored `None`
from an absent key. -/
theorem stored_none_indistinguishable_from_absent (c : LRUCache) (ks : List Nat)
    (k : Nat) (hval : Valid c ks) :
    (alookup c.cache k = none → get c k = some (none, c)) ∧
    (∃ c' c'', put c k none = some c' ∧ get c' k = some (none, c'')) :=
  ⟨get_absent, put_then_get_value k none hval⟩


/-! Concrete instantiations of the general theorems. -/

/-- A concrete consistent two-entry cache (capacity 2, recency order 0 then 1)
used to instantiate the general theorems on specific inputs. -/
def sampleCache : LRUCache :=
  ⟨2, 2, some 0, some 1, [(0, ⟨some 1, none, some 1⟩), (1, ⟨some 2, some 0, none⟩)]⟩

theorem put_at_capacity_evicts_lru_witness :
    ∃ c', put sampleCache 2 (some 9) = some c' ∧
      Valid c' [1, 2] ∧ alookup c'.cache 0 = none ∧ c'.mru_key = some 2 := by
  obtain ⟨c', hput, hval2, hevict, hlru2, hmru2, hent, hsz⟩ :=
    put_at_capacity_evicts_lru sampleCache [0, 1] 2 (some 9)
      (by decide) (by decide) (by decide)
  exact ⟨c', hput, hval2, hevict 0 rfl, hmru2⟩

theorem get_marks_most_recently_used_witness :
    ∃ c', get sampleCache 0 = some (some 1, c') ∧
      c'.mru_key = some 0 ∧ c'.lru_key ≠ some 0 := by
  obtain ⟨c', hget, hmru, hlru, hvalid⟩ :=
    (get_marks_most_recently_used sampleCache [0, 1] 0 (by decide)).1
      ⟨some 1, none, some 1⟩ (by decide)
  exact ⟨c', hget, hmru, hlru (by decide)⟩

theorem delete_removes_and_decrements_witness :
    ∃ c', delete sampleCache 1 = some c' ∧ Valid c' [0] ∧
      alookup c'.cache 1 = none ∧ c'.current_size = 1 := by
  obtain ⟨c', hdel, hval2, hgone, hsz, hget⟩ :=
    (delete_removes_and_decrements sampleCache [0, 1] 1 (by decide)).1
      ⟨⟨some 2, some 0, none⟩, by decide⟩
  refine ⟨c', hdel, hval2, hgone, ?_⟩
  rw [hsz]
  decide

theorem create_capacity_validation_witness :
    create 0 = Except.error CreateError.invalidCapacity ∧
    create 3 = Except.ok ⟨3, 0, none, none, []⟩ :=
  ⟨(create_capacity_validation 0).1 (by decide),
   (create_capacity_validation 3).2.1 (by decide)⟩

theorem size_within_bounds_witness :
    0 ≤ (⟨2, 1, some 0, some 0, [(0, ⟨some 1, none, none⟩)]⟩ : LRUCache).current_size ∧
      (⟨2, 1, some 0, some 0, [(0, ⟨some 1, none, none⟩)]⟩ : LRUCache).current_size ≤
        (⟨2, 1, some 0, some 0, [(0, ⟨some 1, none, none⟩)]⟩ : LRUCache).max_size :=
  size_within_bounds _ ⟨2, ⟨2, 0, none, none, []⟩, [Op.put 0 (some 1)], rfl, by decide⟩

theorem put_then_get_roundtrip_witness :
    ∃ c' c'', put sampleCache 5 (some 42) = some c' ∧ get c' 5 = some (some 42, c'') :=
  put_then_get_roundtrip sampleCache [0, 1] 5 (some 42) (by decide)

theorem stored_none_indistinguishable_witness :
    get sampleCache 7 = some (none, sampleCache) ∧
    (∃ c' c'', put sampleCache 7 none = some c' ∧ get c' 7 = some (none, c'')) :=
  ⟨(stored_none_indistinguishable_from_absent sampleCache [0, 1] 7 (by decide)).1 (by decide),
   (stored_none_indistinguishable_from_absent sampleCache [0, 1] 7 (by decide)).2⟩

end LRU
